import Mathlib

/-!
Verification of the brightpanda incremental extraction pipeline.

A shallow embedding, in Lean 4, of the core data structures and operations of
the brightpanda repository scanner (written in C), together with proofs of the
behavioural properties stated in its specification.

Components embedded here, each translated from the corresponding C source file:

* `src/util/path.c`    — glob matching, basename, extension, join;
* `src/core/walker.c`  — recursive directory walker with built-in ignore list;
* `src/core/entity.c`  — services, endpoints, edges and their collections;
* `src/core/manifest.c`— the aggregate manifest and incremental file removal;
* `src/lang/python/plugin.c` — the query-match driven extraction of endpoints
  and HTTP-call edges (tree-sitter itself is an external library: parse trees
  enter the model as abstract streams of query matches with named captures);
* `src/core/cache.c`   — the change-detection cache: CRC-32 fingerprints, LRU
  eviction, limit enforcement, and the versioned binary snapshot format.

Conventions of the embedding:

* C strings are Lean `String`s; they are assumed NUL-free (a C string cannot
  contain a NUL byte) and, where they are written into the binary cache file,
  byte-valued (every character code < 256, i.e. `strlen` = character count).
* Machine integers are `Nat`/`Int` with explicit `% 2 ^ w` where the C code
  relies on fixed-width wrap-around (the CRC-32 and djb2 hash loops).
* `time_t` values are `Int`; the wall clock is passed to each operation as an
  explicit `now` argument.
* The file system is an explicit parameter: `stat`/`fopen`/`fread` on a path
  are modelled by an `Option FileData` argument carrying what the operation
  observed (`none` = stat/open failure).
* C `float` literals are modelled as exact rationals (`0.8` ↦ `(4 : ℚ)/5`).
-/

namespace Brightpanda

/-! ## `src/util/path.c` -/

/-- The two string-quote characters recognised by the C plugin code
(`'"'` and `'\''`, i.e. codes 34 and 39). -/
def isQuote (c : Char) : Bool :=
  c == Char.ofNat 34 || c == Char.ofNat 39

/-- Core of `path_matches_pattern` (src/util/path.c:84–113), recursing on the
pattern.  The C function walks `pattern` left to right; on `*` it first
returns true if the rest of the pattern is empty, and otherwise tries the
rest of the pattern against every **non-empty** suffix of the remaining
filename (`while (*filename)`), which is `pmp_star_loop` below. -/
def pmp_star_loop (try_rest : List Char → Bool) : List Char → Bool
  | [] => false
  | f :: fs => try_rest (f :: fs) || pmp_star_loop try_rest fs

/-- `path_matches_pattern`, pattern first (the C argument order is
`(filename, pattern)`; the wrapper below restores it). -/
def pmp : List Char → List Char → Bool
  | [], f => f.isEmpty
  | p :: ps, f =>
    if p == Char.ofNat 42 then        -- '*'
      if ps.isEmpty then true
      else pmp_star_loop (fun suffix => pmp ps suffix) f
    else if p == Char.ofNat 63 then   -- '?'
      match f with
      | [] => false
      | _ :: fs => pmp ps fs
    else
      match f with
      | [] => false
      | c :: fs => p == c && pmp ps fs

/-- `path_matches_pattern` (src/util/path.c:84–113). -/
def path_matches_pattern (filename pattern : String) : Bool :=
  pmp pattern.data filename.data

/-- Glob semantics exactly as the specification words them: `*` matches any
(possibly empty) run of characters, `?` matches exactly one character, every
other pattern character matches only itself, and the match is anchored at both
ends.  This is the *specification-side* definition, to be compared with the
implementation `pmp`. -/
def GlobSpec : List Char → List Char → Prop
  | [], f => f = []
  | p :: ps, f =>
    if p = Char.ofNat 42 then
      ∃ run rest, f = run ++ rest ∧ GlobSpec ps rest
    else if p = Char.ofNat 63 then
      ∃ c rest, f = c :: rest ∧ GlobSpec ps rest
    else
      ∃ rest, f = p :: rest ∧ GlobSpec ps rest

/-- Patterns with no two adjacent `*` characters (`Bool`-valued so concrete
instances can be discharged by `decide`). -/
def noAdjacentStars : List Char → Bool
  | p :: q :: ps =>
    !(p == Char.ofNat 42 && q == Char.ofNat 42) && noAdjacentStars (q :: ps)
  | _ => true

/-- Decidability of the specification-side glob semantics is not needed for
the proofs; `noAdjacentStars` is kept `Bool`-valued so concrete instances can
be discharged by `decide`. -/
theorem noAdjacentStars_tail {p : Char} {ps : List Char}
    (h : noAdjacentStars (p :: ps) = true) : noAdjacentStars ps = true := by
  cases ps with
  | nil => rfl
  | cons q ps =>
    simp only [noAdjacentStars, Bool.and_eq_true] at h
    exact h.2

theorem pmp_star_loop_sound {g : List Char → Bool} {f : List Char}
    (h : pmp_star_loop g f = true) :
    ∃ run rest, f = run ++ rest ∧ g rest = true := by
  induction f with
  | nil => simp [pmp_star_loop] at h
  | cons x fs ih =>
    simp only [pmp_star_loop, Bool.or_eq_true] at h
    rcases h with h' | h'
    · exact ⟨[], x :: fs, rfl, h'⟩
    · obtain ⟨run, rest, hsplit, hg⟩ := ih h'
      exact ⟨x :: run, rest, by simp [hsplit], hg⟩

theorem pmp_star_loop_complete {g : List Char → Bool} (run : List Char)
    {rest : List Char} (hrest : rest ≠ []) (hg : g rest = true) :
    pmp_star_loop g (run ++ rest) = true := by
  induction run with
  | nil =>
    cases rest with
    | nil => exact absurd rfl hrest
    | cons r rs => simpa [pmp_star_loop] using Or.inl hg
  | cons x run ih => simpa [pmp_star_loop] using Or.inr ih

/-- The empty filename is only matched by an all-star pattern. -/
theorem globSpec_nil_all_stars {ps : List Char} (h : GlobSpec ps []) :
    ∀ p ∈ ps, p = Char.ofNat 42 := by
  induction ps with
  | nil => simp
  | cons p ps ih =>
    by_cases hstar : p = Char.ofNat 42
    · simp only [GlobSpec, if_pos hstar] at h
      obtain ⟨run, rest, hsplit, hrest⟩ := h
      obtain ⟨-, hrest'⟩ := List.append_eq_nil.mp hsplit.symm
      subst hrest'
      intro q hq
      rcases List.mem_cons.mp hq with rfl | hq
      · exact hstar
      · exact ih hrest q hq
    · exfalso
      by_cases hq : p = Char.ofNat 63
      · simp only [GlobSpec, if_neg hstar, if_pos hq] at h
        obtain ⟨c, rest, hc, -⟩ := h
        simp at hc
      · simp only [GlobSpec, if_neg hstar, if_neg hq] at h
        obtain ⟨rest, hc, -⟩ := h
        simp at hc

/-- Soundness of `path_matches_pattern`: every `true` answer is a correct
match under the specification's glob semantics (no side condition). -/
theorem pmp_sound (ps : List Char) :
    ∀ f, pmp ps f = true → GlobSpec ps f := by
  induction ps with
  | nil =>
    intro f h
    cases f with
    | nil => rfl
    | cons c fs => simp [pmp] at h
  | cons p ps ih =>
    intro f h
    by_cases hstar : p = Char.ofNat 42
    · simp only [pmp, hstar, beq_self_eq_true, if_true] at h
      simp only [GlobSpec, if_pos hstar]
      cases hps : ps.isEmpty
      · rw [hps] at h
        simp only [Bool.false_eq_true, if_false] at h
        obtain ⟨run, rest, hsplit, hg⟩ := pmp_star_loop_sound h
        exact ⟨run, rest, hsplit, ih rest hg⟩
      · have : ps = [] := List.isEmpty_iff.mp hps
        subst this
        exact ⟨f, [], by simp, rfl⟩
    · have hstar' : (p == Char.ofNat 42) = false := beq_eq_false_iff_ne.mpr hstar
      by_cases hq : p = Char.ofNat 63
      · simp only [pmp, hstar', Bool.false_eq_true, if_false, hq, beq_self_eq_true,
          if_true] at h
        cases f with
        | nil => cases h
        | cons c fs =>
          simp only [GlobSpec, if_neg hstar, if_pos hq]
          exact ⟨c, fs, rfl, ih fs h⟩
      · have hq' : (p == Char.ofNat 63) = false := beq_eq_false_iff_ne.mpr hq
        simp only [pmp, hstar', hq', Bool.false_eq_true, if_false] at h
        cases f with
        | nil => cases h
        | cons c fs =>
          rw [Bool.and_eq_true] at h
          obtain ⟨hpc, hrest⟩ := h
          have hpc' : p = c := beq_iff_eq.mp hpc
          simp only [GlobSpec, if_neg hstar, if_neg hq]
          exact ⟨fs, by rw [hpc'], ih fs hrest⟩

/-- Completeness of `path_matches_pattern` for patterns without adjacent
stars: every specification-level match is reported `true`. -/
theorem pmp_complete (ps : List Char) (hna : noAdjacentStars ps = true) :
    ∀ f, GlobSpec ps f → pmp ps f = true := by
  induction ps with
  | nil =>
    intro f h
    have : f = [] := h
    subst this
    rfl
  | cons p ps ih =>
    intro f h
    have ihtail := ih (noAdjacentStars_tail hna)
    by_cases hstar : p = Char.ofNat 42
    · simp only [GlobSpec, if_pos hstar] at h
      obtain ⟨run, rest, hsplit, hrest⟩ := h
      simp only [pmp, hstar, beq_self_eq_true, if_true]
      cases hps : ps.isEmpty
      · simp only [Bool.false_eq_true, if_false]
        have hpmprest : pmp ps rest = true := ihtail rest hrest
        have hrestne : rest ≠ [] := by
          intro hnil
          subst hnil
          cases ps with
          | nil => simp [List.isEmpty] at hps
          | cons q ps' =>
            have hq42 : q = Char.ofNat 42 :=
              globSpec_nil_all_stars hrest q (List.mem_cons_self q ps')
            subst hstar hq42
            simp [noAdjacentStars] at hna
        subst hsplit
        exact pmp_star_loop_complete run hrestne hpmprest
      · simp
    · have hstar' : (p == Char.ofNat 42) = false := beq_eq_false_iff_ne.mpr hstar
      by_cases hq : p = Char.ofNat 63
      · simp only [GlobSpec, if_neg hstar, if_pos hq] at h
        obtain ⟨c, rest, hsplit, hrest⟩ := h
        subst hsplit
        simp only [pmp, hstar', Bool.false_eq_true, if_false, hq, beq_self_eq_true, if_true]
        exact ihtail rest hrest
      · have hq' : (p == Char.ofNat 63) = false := beq_eq_false_iff_ne.mpr hq
        simp only [GlobSpec, if_neg hstar, if_neg hq] at h
        obtain ⟨rest, hsplit, hrest⟩ := h
        subst hsplit
        simp only [pmp, hstar', hq', Bool.false_eq_true, if_false, beq_self_eq_true,
          Bool.true_and]
        exact ihtail rest hrest

/-- C9 (counterexample): the claimed equivalence between
`path_matches_pattern` and the specification's glob semantics fails at the
concrete input `filename = ""`, `pattern = "**"`: under the specified
semantics each `*` matches an empty run, so the pattern matches, but the
implementation returns `false` (after consuming a `*` it only ever retries
the rest of the pattern against non-empty suffixes of the filename). -/
theorem glob_matching_counterexample :
    path_matches_pattern "" "**" = false ∧ GlobSpec "**".data "".data :=
  ⟨by decide, ⟨[], [], rfl, ⟨[], [], rfl, rfl⟩⟩⟩

/-- C9 (amended): `path_matches_pattern s p = true` always implies that `s`
matches `p` under the specified glob semantics (`*` = any possibly-empty run,
`?` = exactly one character, other characters literally, anchored at both
ends), and for every pattern containing no two consecutive `*` characters the
converse holds as well, giving the claimed equivalence. -/
theorem glob_matching_semantics (s p : String) :
    (path_matches_pattern s p = true → GlobSpec p.data s.data) ∧
    (noAdjacentStars p.data = true →
      (path_matches_pattern s p = true ↔ GlobSpec p.data s.data)) :=
  ⟨fun h => pmp_sound p.data s.data h,
   fun hna =>
     ⟨fun h => pmp_sound p.data s.data h,
      fun h => pmp_complete p.data hna s.data h⟩⟩

/-- Witness for C9's amended theorem at a concrete input: the builtin ignore
pattern `"*.pyc"` has no adjacent stars, the implementation accepts
`"hello.pyc"`, and the theorem turns that into a specification-level match. -/
theorem glob_matching_semantics_witness : GlobSpec "*.pyc".data "hello.pyc".data :=
  ((glob_matching_semantics "hello.pyc" "*.pyc").2 (by decide)).mp (by decide)

/-- `path_basename` (src/util/path.c:115–120): the portion after the last
`'/'`, or the whole string when it has none. -/
def path_basename (path : String) : String :=
  ⟨((path.data.reverse.takeWhile (fun c => c ≠ Char.ofNat 47)).reverse)⟩

/-- `path_get_extension` (src/util/path.c:35–47): the portion after the last
`'.'`, provided that dot comes after the last `'/'`; `none` otherwise. -/
def path_get_extension (path : String) : Option String :=
  let revAfterDot := path.data.reverse.takeWhile (fun c => c ≠ Char.ofNat 46)
  if revAfterDot.length = path.data.length then
    none                                     -- no '.' at all
  else if revAfterDot.contains (Char.ofNat 47) then
    none                                     -- last '/' comes after last '.'
  else
    some ⟨revAfterDot.reverse⟩

/-- `path_join` (src/util/path.c:49–69): concatenation with a `'/'` separator
unless the base is empty or already ends in `'/'`. -/
def path_join (base component : String) : String :=
  if base.data ≠ [] ∧ base.data.getLast? ≠ some (Char.ofNat 47) then
    ⟨base.data ++ Char.ofNat 47 :: component.data⟩
  else
    ⟨base.data ++ component.data⟩

/-! ## `src/core/walker.c`

The directory tree being walked is modelled as a rose tree of named entries.
`readdir` enumeration order is the order of the `children` list.  The claim's
trees contain only directories and regular files, so symbolic links and other
`lstat` types (and `opendir`/`lstat` failures) do not appear in the model;
`follow_symlinks` and `respect_gitignore` are carried in the configuration for
fidelity but, as in `walk_recursive` for the former on link-free trees and in
the whole of walker.c for the latter, they are never consulted. -/

inductive FSNode where
  | file (name : String)
  | dir (name : String) (children : List FSNode)
deriving Repr

/-- The `d_name` of a directory entry. -/
def FSNode.name : FSNode → String
  | .file n => n
  | .dir n _ => n

/-- `WalkerConfig` (src/core/walker.h). -/
structure WalkerConfig where
  follow_symlinks : Bool
  respect_gitignore : Bool
  max_depth : Nat
  extensions : List String
deriving Repr

/-- `BUILTIN_IGNORE_PATTERNS` (src/core/walker.c:13–34). -/
def BUILTIN_IGNORE_PATTERNS : List String :=
  [".git", ".svn", ".hg", "node_modules", "__pycache__", ".pytest_cache",
   ".mypy_cache", "venv", ".venv", "env", ".env", "build", "dist",
   ".DS_Store", "*.pyc", "*.pyo", "*.pyd", ".so", ".dylib"]

/-- `should_ignore_builtin` (src/core/walker.c:47–54). -/
def should_ignore_builtin (name : String) : Bool :=
  BUILTIN_IGNORE_PATTERNS.any (fun pat => path_matches_pattern name pat)

/-- `matches_extensions` (src/core/walker.c:56–71). -/
def matches_extensions (filepath : String) (config : WalkerConfig) : Bool :=
  if config.extensions.isEmpty then true
  else
    match path_get_extension filepath with
    | none => false
    | some ext => config.extensions.contains ext

/- The body of `walk_recursive` (src/core/walker.c:73–153), split into the
per-entry step (`walk_child`) and the `readdir` loop (`walk_children`).
The result pair collects, in order, the full paths passed to the file
callback and the full paths of the directories opened (`opendir`).  The
`max_depth` cut-off is checked, as in the C code, on entry to a directory
*before* it is opened. -/
mutual

/-- The `readdir` loop of `walk_recursive` (src/core/walker.c:95–150). -/
def walk_children (config : WalkerConfig) (dirpath : String) (depth : Nat) :
    List FSNode → List String × List String
  | [] => ([], [])
  | e :: rest =>
    let r1 := walk_child config dirpath depth e
    let r2 := walk_children config dirpath depth rest
    (r1.1 ++ r2.1, r1.2 ++ r2.2)

/-- One iteration of the `readdir` loop: dot-entry and ignore-list checks on
the entry name, then the regular-file or directory branch
(src/core/walker.c:96–147). -/
def walk_child (config : WalkerConfig) (dirpath : String) (depth : Nat) :
    FSNode → List String × List String
  | .file n =>
    if n = "." ∨ n = ".." then ([], [])
    else if should_ignore_builtin n then ([], [])
    else
      let fullpath := path_join dirpath n
      if matches_extensions fullpath config then ([fullpath], []) else ([], [])
  | .dir n cs =>
    if n = "." ∨ n = ".." then ([], [])
    else if should_ignore_builtin n then ([], [])
    else
      let fullpath := path_join dirpath n
      if config.max_depth > 0 ∧ depth + 1 ≥ config.max_depth then ([], [])
      else
        let r := walk_children config fullpath (depth + 1) cs
        (r.1, fullpath :: r.2)

end

/-- `walk_recursive` applied to the walk's root directory (depth 0; the root
was checked by `walker_walk` to exist and be a directory, and its own name is
not subjected to the ignore list).  With `max_depth > 0` the depth test
`0 >= max_depth` at the root is vacuous. -/
def walk_recursive (config : WalkerConfig) (root : String)
    (children : List FSNode) : List String × List String :=
  if config.max_depth > 0 ∧ 0 ≥ config.max_depth then ([], [])
  else
    let r := walk_children config root 0 children
    (r.1, root :: r.2)

/-- Specification-side description of the files a walk visits (one entry per
qualifying regular-file node, in traversal order), written from the walker
contract's words: skip `.`/`..`, skip entries matching the built-in ignore
list, recurse into directories unless `max_depth` (0 = unlimited) is reached,
pass regular files through the extension allow-list. -/
def spec_visited_files (config : WalkerConfig) (dirpath : String) (depth : Nat) :
    List FSNode → List String
  | [] => []
  | .file n :: rest =>
    (if n ≠ "." ∧ n ≠ ".." ∧ should_ignore_builtin n = false ∧
        matches_extensions (path_join dirpath n) config = true then
      [path_join dirpath n]
    else []) ++ spec_visited_files config dirpath depth rest
  | .dir n cs :: rest =>
    (if n ≠ "." ∧ n ≠ ".." ∧ should_ignore_builtin n = false ∧
        (config.max_depth = 0 ∨ depth + 1 < config.max_depth) then
      spec_visited_files config (path_join dirpath n) (depth + 1) cs
    else []) ++ spec_visited_files config dirpath depth rest
termination_by es => sizeOf es
decreasing_by all_goals simp <;> omega

/-- Specification-side description of the directories a walk opens below a
given directory, under the same skipping rules. -/
def spec_opened_dirs (config : WalkerConfig) (dirpath : String) (depth : Nat) :
    List FSNode → List String
  | [] => []
  | .file _ :: rest => spec_opened_dirs config dirpath depth rest
  | .dir n cs :: rest =>
    (if n ≠ "." ∧ n ≠ ".." ∧ should_ignore_builtin n = false ∧
        (config.max_depth = 0 ∨ depth + 1 < config.max_depth) then
      path_join dirpath n ::
        spec_opened_dirs config (path_join dirpath n) (depth + 1) cs
    else []) ++ spec_opened_dirs config dirpath depth rest
termination_by es => sizeOf es
decreasing_by all_goals simp <;> omega

theorem walk_children_nil (config : WalkerConfig) (dirpath : String) (depth : Nat) :
    walk_children config dirpath depth [] = ([], []) := rfl

theorem walk_children_cons (config : WalkerConfig) (dirpath : String) (depth : Nat)
    (e : FSNode) (rest : List FSNode) :
    walk_children config dirpath depth (e :: rest) =
      ((walk_child config dirpath depth e).1 ++ (walk_children config dirpath depth rest).1,
       (walk_child config dirpath depth e).2 ++ (walk_children config dirpath depth rest).2) :=
  rfl

theorem walk_children_eq_spec (config : WalkerConfig) :
    ∀ (n : Nat) (es : List FSNode), sizeOf es ≤ n → ∀ (dirpath : String) (depth : Nat),
      walk_children config dirpath depth es =
        (spec_visited_files config dirpath depth es,
         spec_opened_dirs config dirpath depth es) := by
  intro n
  induction n using Nat.strong_induction_on with
  | _ n ih =>
    intro es hsize dirpath depth
    match es with
    | [] => simp [walk_children_nil, spec_visited_files, spec_opened_dirs]
    | e :: rest =>
      have hsz : sizeOf (e :: rest) ≤ n := hsize
      have hrest : walk_children config dirpath depth rest =
          (spec_visited_files config dirpath depth rest,
           spec_opened_dirs config dirpath depth rest) := by
        have h1 : sizeOf rest < n := by simp at hsz; omega
        exact ih (sizeOf rest) h1 rest le_rfl dirpath depth
      match e with
      | FSNode.file fn =>
        rw [walk_children_cons, hrest]
        by_cases h1 : fn = "." ∨ fn = ".."
        · have h1' : ¬(fn ≠ "." ∧ fn ≠ ".." ∧ should_ignore_builtin fn = false ∧
              matches_extensions (path_join dirpath fn) config = true) := by
            tauto
          simp [walk_child, spec_visited_files, spec_opened_dirs, h1, h1']
        · push_neg at h1
          by_cases h2 : should_ignore_builtin fn = true
          · have h2' : ¬(fn ≠ "." ∧ fn ≠ ".." ∧ should_ignore_builtin fn = false ∧
                matches_extensions (path_join dirpath fn) config = true) := by
              simp [h2]
            simp [walk_child, spec_visited_files, spec_opened_dirs, h1.1, h1.2, h2, h2']
          · have h2f : should_ignore_builtin fn = false := by
              simpa using h2
            by_cases h3 : matches_extensions (path_join dirpath fn) config = true
            · simp [walk_child, spec_visited_files, spec_opened_dirs,
                h1.1, h1.2, h2f, h3]
            · simp [walk_child, spec_visited_files, spec_opened_dirs,
                h1.1, h1.2, h2f, h3]
      | FSNode.dir dn cs =>
        rw [walk_children_cons, hrest]
        by_cases h1 : dn = "." ∨ dn = ".."
        · have h1' : ¬(dn ≠ "." ∧ dn ≠ ".." ∧ should_ignore_builtin dn = false ∧
              (config.max_depth = 0 ∨ depth + 1 < config.max_depth)) := by
            tauto
          simp [walk_child, spec_visited_files, spec_opened_dirs, h1, h1']
        · push_neg at h1
          by_cases h2 : should_ignore_builtin dn = true
          · have h2' : ¬(dn ≠ "." ∧ dn ≠ ".." ∧ should_ignore_builtin dn = false ∧
                (config.max_depth = 0 ∨ depth + 1 < config.max_depth)) := by
              simp [h2]
            simp [walk_child, spec_visited_files, spec_opened_dirs, h1.1, h1.2, h2, h2']
          · have h2f : should_ignore_builtin dn = false := by
              simpa using h2
            have hcs : walk_children config (path_join dirpath dn) (depth + 1) cs =
                (spec_visited_files config (path_join dirpath dn) (depth + 1) cs,
                 spec_opened_dirs config (path_join dirpath dn) (depth + 1) cs) := by
              have hlt : sizeOf cs < n := by simp at hsz; omega
              exact ih (sizeOf cs) hlt cs le_rfl (path_join dirpath dn) (depth + 1)
            by_cases h3 : config.max_depth > 0 ∧ depth + 1 ≥ config.max_depth
            · have h3' : ¬(config.max_depth = 0 ∨ depth + 1 < config.max_depth) := by
                omega
              simp [walk_child, spec_visited_files, spec_opened_dirs,
                h1.1, h1.2, h2f, h3, h3']
            · have h3' : config.max_depth = 0 ∨ depth + 1 < config.max_depth := by
                omega
              simp [walk_child, spec_visited_files, spec_opened_dirs,
                h1.1, h1.2, h2f, h3, h3', hcs]

/-- The walker configuration fixed by the claim: `extensions = ["py"]`,
`max_depth = 10` (other fields as `walker_config_default`). -/
def pyWalkerConfig : WalkerConfig :=
  { follow_symlinks := false, respect_gitignore := true,
    max_depth := 10, extensions := ["py"] }

/-- C8: with `extensions = ["py"]` and `max_depth = 10`, a walk from a root
directory (i) passes to the file callback exactly the full paths of the
reachable regular `.py` files, one invocation per file node, in traversal
order — `spec_visited_files` lists, per the walker contract, one path for
every regular-file node that survives the dot-entry check, the built-in
ignore list and the `py` extension filter and lies in a directory chain of
non-ignored directories within the depth bound — and (ii) opens exactly the
root and the reachable non-ignored directories; in particular (iii) a
directory entry whose name matches the built-in ignore list (such as `.git`
or `node_modules`) contributes neither callback invocations nor opened
directories: it is never opened or descended into. -/
theorem walker_selection :
    (∀ (root : String) (children : List FSNode),
      walk_recursive pyWalkerConfig root children =
        (spec_visited_files pyWalkerConfig root 0 children,
         root :: spec_opened_dirs pyWalkerConfig root 0 children)) ∧
    (∀ (dirpath : String) (depth : Nat) (name : String) (cs : List FSNode),
      should_ignore_builtin name = true →
        walk_child pyWalkerConfig dirpath depth (FSNode.dir name cs) = ([], []) ∧
        walk_child pyWalkerConfig dirpath depth (FSNode.file name) = ([], [])) := by
  constructor
  · intro root children
    have h := walk_children_eq_spec pyWalkerConfig (sizeOf children) children le_rfl root 0
    rw [walk_recursive, if_neg (by simp [pyWalkerConfig]), h]
  · intro dirpath depth name cs hig
    by_cases hdot : name = "." ∨ name = ".."
    · constructor <;> simp [walk_child, hdot]
    · push_neg at hdot
      constructor <;> simp [walk_child, hdot.1, hdot.2, hig]

/-- Witness for C8 at a concrete tree: a root containing a `.git` directory,
a `node_modules` directory (holding a `.py` file that must not be seen) and
exactly three reachable `.py` files.  The walk visits exactly those three
files once each and opens only the root and the two ordinary directories;
the `.git` entry contributes nothing at all. -/
theorem walker_selection_witness :
    walk_recursive pyWalkerConfig "repo"
        [FSNode.dir ".git" [FSNode.file "config"],
         FSNode.file "a.py",
         FSNode.dir "node_modules" [FSNode.dir "pkg" [FSNode.file "x.py"]],
         FSNode.dir "src" [FSNode.file "b.py", FSNode.dir "deep" [FSNode.file "c.py"],
           FSNode.file "README.md"]] =
      (["repo/a.py", "repo/src/b.py", "repo/src/deep/c.py"],
       ["repo", "repo/src", "repo/src/deep"]) ∧
    walk_child pyWalkerConfig "repo" 0 (FSNode.dir ".git" [FSNode.file "config"]) = ([], []) :=
  ⟨by decide,
   (walker_selection.2 "repo" 0 ".git" [FSNode.file "config"] (by decide)).1⟩

/-! ## `src/core/entity.h` / `src/core/entity.c`

Entities are plain records; `char*` fields that may be NULL in C are
`Option String`.  The dynamic-array collections (`ServiceList` etc.) are Lean
lists; their `count`/`capacity` bookkeeping and reallocation is memory
management with no observable effect on the element sequence. -/

inductive HttpMethod where
  | get | post | put | delete | patch | head | options | unknown
deriving DecidableEq, Repr

inductive EdgeType where
  | http_call | imports | rpc | database | message_queue | unknown
deriving DecidableEq, Repr

structure Service where
  name : String
  language : String
  path : String
  files : List String
deriving DecidableEq, Repr

structure Endpoint where
  service_name : String
  path : String
  method : HttpMethod
  handler : Option String
  file : Option String
  line : Int
deriving DecidableEq, Repr

structure Edge where
  from_service : String
  to_service : String
  type : EdgeType
  method : Option String
  endpoint : Option String
  file : Option String
  line : Int
  confidence : ℚ
deriving DecidableEq, Repr

/-- `edge_create` (src/core/entity.c:195–224): fields copied, confidence
defaulted to 1.0. -/
def edge_create (from_service to_service : String) (type : EdgeType)
    (method endpoint file : Option String) (line : Int) : Edge :=
  { from_service := from_service, to_service := to_service, type := type,
    method := method, endpoint := endpoint, file := file, line := line,
    confidence := 1 }

/-- `edge_set_confidence` (src/core/entity.c:249–254): clamp to [0, 1]. -/
def edge_set_confidence (edge : Edge) (confidence : ℚ) : Edge :=
  let c1 := if confidence < 0 then 0 else confidence
  { edge with confidence := if 1 < c1 then 1 else c1 }

/-- `endpoint_create` (src/core/entity.c:103–129). -/
def endpoint_create (service_name path : String) (method : HttpMethod)
    (handler file : Option String) (line : Int) : Endpoint :=
  { service_name := service_name, path := path, method := method,
    handler := handler, file := file, line := line }

/-- `service_create` (src/core/entity.c:19–42): empty file list. -/
def service_create (name language path : String) : Service :=
  { name := name, language := language, path := path, files := [] }

/-- `service_remove_file` (src/core/entity.c:226–247): removes the **first**
occurrence of `filepath` from the service's file list (the C loop returns as
soon as one match has been removed), shifting later entries down. -/
def service_remove_file (service : Service) (filepath : String) : Service :=
  { service with files := service.files.eraseP (fun f => f == filepath) }

/-! ## `src/core/manifest.c` -/

/-- The manifest aggregate (src/core/manifest.h).  Scan metadata (versions,
repository name, timestamp, counters) has no bearing on any claim and is
omitted; the three entity collections are the modelled state. -/
@[ext]
structure Manifest where
  services : List Service
  endpoints : List Endpoint
  edges : List Edge
deriving DecidableEq, Repr

/-- `manifest_remove_file` (src/core/manifest.c:256–303): endpoints and edges
whose (non-NULL) provenance `file` equals the **basename** of `filepath` are
removed, preserving the order of survivors; every service then has the **full**
`filepath` removed from its file list via `service_remove_file`. -/
def manifest_remove_file (manifest : Manifest) (filepath : String) : Manifest :=
  let base := path_basename filepath
  { manifest with
    endpoints := manifest.endpoints.filter (fun ep => !(ep.file == some base)),
    edges := manifest.edges.filter (fun e => !(e.file == some base)),
    services := manifest.services.map (fun svc => service_remove_file svc filepath) }

/-- If `filepath` occurs at most once in the list, `eraseP` removes it for
good. -/
theorem not_mem_eraseP_of_count_le_one {l : List String} {p : String}
    (h : l.count p ≤ 1) : p ∉ l.eraseP (fun f => f == p) := by
  induction l with
  | nil => simp
  | cons a l ih =>
    by_cases hap : a = p
    · subst hap
      rw [List.eraseP_cons_of_pos (by simp)]
      have hz : l.count a = 0 := by
        have hc := h
        simp [List.count_cons] at hc
        omega
      exact List.count_eq_zero.mp hz
    · rw [List.eraseP_cons_of_neg (by simp [hap])]
      intro hc
      rcases List.mem_cons.mp hc with rfl | hc
      · exact hap rfl
      · exact ih (by simpa [List.count_cons, hap] using h) hc

/-- C6 (counterexample input): a manifest whose single service lists the same
file twice. -/
def manifest_with_duplicate_file : Manifest :=
  { services := [{ name := "s", language := "python", path := "svc",
                   files := ["dup.py", "dup.py"] }],
    endpoints := [], edges := [] }

/-- C6 (counterexample): `service_remove_file` removes only the *first*
occurrence of the path, so when a service's file list contains `p` twice a
single `manifest_remove_file` call leaves an occurrence of `p` behind, and a
second call with the same `p` is not a no-op. -/
theorem manifest_remove_file_counterexample :
    ((manifest_remove_file manifest_with_duplicate_file "dup.py").services.any
      (fun s => s.files.contains "dup.py")) = true ∧
    manifest_remove_file (manifest_remove_file manifest_with_duplicate_file "dup.py")
        "dup.py" ≠
      manifest_remove_file manifest_with_duplicate_file "dup.py" := by
  decide

/-- C6 (amended): provided no service's file list mentions `p` more than once
(one call of `service_remove_file` removes one occurrence), after
`manifest_remove_file m p`: no endpoint or edge carries the provenance under
which entities of file `p` are recorded (`path_basename p`, see C10); no
service's file list contains `p`; survivors keep their relative order
(endpoint and edge lists are sublists of the originals, services are mapped
in place and each file list is a sublist of the original); and a second call
with the same `p` changes nothing. -/
theorem manifest_remove_file_correct (m : Manifest) (p : String)
    (hdup : ∀ s ∈ m.services, s.files.count p ≤ 1) :
    (∀ ep ∈ (manifest_remove_file m p).endpoints, ep.file ≠ some (path_basename p)) ∧
    (∀ e ∈ (manifest_remove_file m p).edges, e.file ≠ some (path_basename p)) ∧
    (∀ s ∈ (manifest_remove_file m p).services, p ∉ s.files) ∧
    (manifest_remove_file m p).endpoints.Sublist m.endpoints ∧
    (manifest_remove_file m p).edges.Sublist m.edges ∧
    (manifest_remove_file m p).services
      = m.services.map (fun s => service_remove_file s p) ∧
    (∀ s : Service, (service_remove_file s p).files.Sublist s.files) ∧
    manifest_remove_file (manifest_remove_file m p) p = manifest_remove_file m p := by
  refine ⟨?_, ?_, ?_, ?_, ?_, rfl, ?_, ?_⟩
  · intro ep hep
    have := (List.mem_filter.mp hep).2
    simpa using this
  · intro e he
    have := (List.mem_filter.mp he).2
    simpa using this
  · intro s hs
    simp only [manifest_remove_file, List.mem_map] at hs
    obtain ⟨s₀, hs₀, rfl⟩ := hs
    exact not_mem_eraseP_of_count_le_one (hdup s₀ hs₀)
  · exact List.filter_sublist _
  · exact List.filter_sublist _
  · intro s
    exact List.eraseP_sublist _
  · have hsvc : ∀ s₀ ∈ m.services,
        service_remove_file (service_remove_file s₀ p) p = service_remove_file s₀ p := by
      intro s₀ hs₀
      have hnot := not_mem_eraseP_of_count_le_one (hdup s₀ hs₀)
      simp only [service_remove_file]
      congr 1
      exact List.eraseP_of_forall_not (fun a ha => by
        simp only [beq_iff_eq]
        rintro rfl
        exact hnot ha)
    simp only [manifest_remove_file, List.filter_filter, List.map_map]
    refine Manifest.ext ?_ ?_ ?_
    · simp only [Function.comp]
      exact List.map_congr_left (fun s₀ hs₀ => hsvc s₀ hs₀)
    · exact List.filter_congr (fun ep _ => by simp)
    · exact List.filter_congr (fun e _ => by simp)

/-- Witness for C6's amended theorem: a small duplicate-free manifest; the
second removal of `"a/b.py"` is a no-op. -/
def manifest_small : Manifest :=
  { services := [{ name := "s", language := "python", path := "a",
                   files := ["a/b.py", "a/c.py"] }],
    endpoints := [endpoint_create "s" "/health" HttpMethod.get (some "health")
      (some "b.py") 3],
    edges := [edge_create "s" "http://x/y" EdgeType.http_call (some "get")
      (some "http://x/y") (some "b.py") 7] }

theorem manifest_remove_file_correct_witness :
    manifest_remove_file (manifest_remove_file manifest_small "a/b.py") "a/b.py" =
      manifest_remove_file manifest_small "a/b.py" :=
  (manifest_remove_file_correct manifest_small "a/b.py" (by decide)).2.2.2.2.2.2.2

/-! ## `src/lang/python/plugin.c`

Tree-sitter is an external library: a parsed source file enters the model as
the streams of query matches `ts_query_cursor_next_match` produces for the
routes query and the calls query.  A match carries its captures in order;
each capture carries the capture name (`ts_query_capture_name_for_id`), the
source text of the captured node (`source[start..end)`), and the node's start
row. -/

structure TSCapture where
  name : String
  text : List Char
  row : Nat
deriving DecidableEq, Repr

structure TSMatch where
  captures : List TSCapture
deriving DecidableEq, Repr

/-- The capture-name comparison the plugin performs:
`strncmp(capture_name, target, capture_name_len) == 0` with
`capture_name_len = strlen(capture_name)`, which holds exactly when the
capture name is a prefix of `target` (for NUL-free strings). -/
def capture_name_matches (capture_name target : String) : Bool :=
  capture_name.data == target.data.take capture_name.data.length

/-- The in-loop quote stripping of `extract_calls`/`extract_routes`
(src/lang/python/plugin.c:345–352 and 431–438): if the first character of the
captured text is a quote, point past it, and when the length exceeds 2
overwrite the last character with NUL.  Only the first character is tested;
the last character is dropped unconditionally (for length > 2). -/
def strip_quotes_capture (t : List Char) : List Char :=
  match t with
  | [] => []
  | c :: rest => if isQuote c then (if t.length > 2 then rest.dropLast else rest) else t

/-- The capture loop of `extract_calls` (src/lang/python/plugin.c:404–440):
scan the captures in order, remembering the last sufficiently short text seen
for each of the three capture names (`lib_buffer`/`method_buffer` are 128
bytes, `url_buffer` is 512 bytes and its copy requires
`length < sizeof(url_buffer) - 1`); the URL is quote-stripped as it is
stored. -/
def calls_scan_captures (captures : List TSCapture) :
    Option (List Char) × Option (List Char) × Option (List Char) :=
  captures.foldl
    (fun acc cap =>
      if capture_name_matches cap.name "http.client.lib" then
        if cap.text.length < 128 then (some cap.text, acc.2.1, acc.2.2) else acc
      else if capture_name_matches cap.name "http.client.method" then
        if cap.text.length < 128 then (acc.1, some cap.text, acc.2.2) else acc
      else if capture_name_matches cap.name "http.client.url" then
        if cap.text.length < 511 then
          (acc.1, acc.2.1, some (strip_quotes_capture cap.text))
        else acc
      else acc)
    (none, none, none)

/-- The 1-based line recorded on an extracted entity:
`ts_node_start_point(match.captures[0].node).row + 1`.  (The C code only
reads `captures[0]` after at least one capture produced a non-NULL field, so
the empty-captures default is never observable.) -/
def match_line (m : TSMatch) : Int :=
  (match m.captures with
   | [] => 0
   | c :: _ => (c.row : Int)) + 1

/-- The per-match edge construction of `extract_calls`
(src/lang/python/plugin.c:442–462): an edge is produced precisely when all
three captures were collected and the library identifier is on the fixed
allow-list (`requests`, `httpx`); the edge's target service and endpoint are
the stripped URL, its provenance file is the basename of the service's path,
and its confidence is set to 0.8 through `edge_set_confidence`. -/
def calls_match_edges (service_name svc_path : String) (m : TSMatch) : List Edge :=
  match calls_scan_captures m.captures with
  | (some lib, some method, some url) =>
    if lib = "requests".data ∨ lib = "httpx".data then
      [edge_set_confidence
        (edge_create service_name ⟨url⟩ EdgeType.http_call (some ⟨method⟩) (some ⟨url⟩)
          (some (path_basename svc_path)) (match_line m))
        (4/5)]
    else []
  | _ => []

/-- `extract_calls` (src/lang/python/plugin.c:387–466): the
`ts_query_cursor_next_match` loop appends each match's edges in order. -/
def extract_calls (service_name svc_path : String) (ms : List TSMatch) :
    List Edge :=
  ms.flatMap (calls_match_edges service_name svc_path)

/-- The capture loop of `extract_routes` (src/lang/python/plugin.c:331–361):
`path_buffer` is 512 bytes (copy requires `length < 511`, quote-stripped),
`handler_buffer` is 256 bytes (`length < 256`). -/
def routes_scan_captures (captures : List TSCapture) :
    Option (List Char) × Option (List Char) :=
  captures.foldl
    (fun acc cap =>
      if capture_name_matches cap.name "route.path" then
        if cap.text.length < 511 then (some (strip_quotes_capture cap.text), acc.2)
        else acc
      else if capture_name_matches cap.name "route.handler" then
        if cap.text.length < 256 then (acc.1, some cap.text) else acc
      else acc)
    (none, none)

/-- The per-match endpoint construction of `extract_routes`
(src/lang/python/plugin.c:363–381): method defaults to GET, provenance file
is the basename of the service's path. -/
def routes_match_endpoints (service_name svc_path : String) (m : TSMatch) :
    List Endpoint :=
  match routes_scan_captures m.captures with
  | (some rpath, some handler) =>
    [endpoint_create service_name ⟨rpath⟩ HttpMethod.get (some ⟨handler⟩)
      (some (path_basename svc_path)) (match_line m)]
  | _ => []

/-- `extract_routes` (src/lang/python/plugin.c:316–385). -/
def extract_routes (service_name svc_path : String) (ms : List TSMatch) :
    List Endpoint :=
  ms.flatMap (routes_match_endpoints service_name svc_path)

/-- The result collections of `python_parse_file`
(src/lang/python/plugin.c:174–245) after a successful parse: the service is
`service_create(service_name, "python", filepath)` — so its `path` is the
full file path — and both extractors receive `result->service->path` for
their provenance basename. -/
structure ParseResult where
  service : Service
  endpoints : List Endpoint
  edges : List Edge
deriving DecidableEq, Repr

def python_parse_file (filepath service_name : String)
    (route_matches calls_matches : List TSMatch) : ParseResult :=
  let svc := service_create service_name "python" filepath
  { service := svc,
    endpoints := extract_routes service_name svc.path route_matches,
    edges := extract_calls service_name svc.path calls_matches }

/-- C7: if a call-query match's captures yield a library identifier, a method
name and a URL (the `requests.get("http://x/y")` shape), then: when the
library identifier is on the fixed allow-list (`requests`, `httpx`) the match
yields exactly one `http_call` edge whose method is the captured method name,
whose confidence is exactly 0.8 (= 4/5), and whose target/endpoint is the
captured URL as stored — quote-stripped; when the identifier is not on the
allow-list the match yields no edge.  `extract_calls` emits exactly the
per-match edges in match order, and the stored URL of a quoted capture is its
interior (the quote stripping drops the opening quote and, for texts longer
than 2, the final character). -/
theorem http_call_extraction (sname spath : String) (ms : List TSMatch)
    (m : TSMatch) (lib method url : List Char)
    (hscan : calls_scan_captures m.captures = (some lib, some method, some url)) :
    (lib = "requests".data ∨ lib = "httpx".data →
      calls_match_edges sname spath m =
        [{ from_service := sname, to_service := ⟨url⟩, type := EdgeType.http_call,
           method := some ⟨method⟩, endpoint := some ⟨url⟩,
           file := some (path_basename spath), line := match_line m,
           confidence := 4/5 }]) ∧
    (¬(lib = "requests".data ∨ lib = "httpx".data) →
      calls_match_edges sname spath m = []) ∧
    extract_calls sname spath ms = ms.flatMap (calls_match_edges sname spath) ∧
    (∀ (q c : Char) (inner : List Char), isQuote q = true → inner ≠ [] →
      strip_quotes_capture (q :: (inner ++ [c])) = inner) := by
  refine ⟨?_, ?_, rfl, ?_⟩
  · intro hlib
    unfold calls_match_edges
    rw [hscan]
    simp only [if_pos hlib]
    have hc : edge_set_confidence
        (edge_create sname ⟨url⟩ EdgeType.http_call (some ⟨method⟩) (some ⟨url⟩)
          (some (path_basename spath)) (match_line m)) (4/5) =
        { from_service := sname, to_service := ⟨url⟩, type := EdgeType.http_call,
          method := some ⟨method⟩, endpoint := some ⟨url⟩,
          file := some (path_basename spath), line := match_line m,
          confidence := 4/5 } := by
      unfold edge_set_confidence edge_create
      norm_num
    rw [hc]
  · intro hlib
    unfold calls_match_edges
    rw [hscan]
    simp only [if_neg hlib]
  · intro q c inner hq hinner
    have hlen : (q :: (inner ++ [c])).length > 2 := by
      simp [List.length_append]
      exact List.length_pos.mpr hinner
    simp only [strip_quotes_capture, hq, if_true]
    rw [if_pos hlen, List.dropLast_concat]

/-- Witness input for C7: the match stream produced for a source containing
`requests.get("http://x/y")`. -/
def calls_match_W : TSMatch :=
  { captures :=
      [{ name := "http.client.lib", text := "requests".data, row := 11 },
       { name := "http.client.method", text := "get".data, row := 11 },
       { name := "http.client.url", text := "\"http://x/y\"".data, row := 11 }] }

/-- Witness for C7 at the concrete match above: one `http_call` edge, method
`"get"`, confidence 4/5, URL quote-stripped, provenance `api.py`, line 12. -/
theorem http_call_extraction_witness :
    calls_match_edges "auth" "services/auth/api.py" calls_match_W =
      [{ from_service := "auth", to_service := "http://x/y",
         type := EdgeType.http_call, method := some "get",
         endpoint := some "http://x/y", file := some "api.py", line := 12,
         confidence := 4/5 }] := by
  have h := (http_call_extraction "auth" "services/auth/api.py" [] calls_match_W
      "requests".data "get".data "http://x/y".data (by decide)).1 (by decide)
  rw [h]
  rfl

theorem routes_match_endpoints_file (sname spath : String) (m : TSMatch) :
    ∀ ep ∈ routes_match_endpoints sname spath m,
      ep.file = some (path_basename spath) := by
  intro ep hep
  unfold routes_match_endpoints at hep
  rcases h : routes_scan_captures m.captures with ⟨rp, hd⟩
  rw [h] at hep
  cases rp with
  | none => cases hd <;> simp at hep
  | some rpath =>
    cases hd with
    | none => simp at hep
    | some handler =>
      simp only [List.mem_singleton] at hep
      subst hep
      rfl

theorem calls_match_edges_file (sname spath : String) (m : TSMatch) :
    ∀ e ∈ calls_match_edges sname spath m,
      e.file = some (path_basename spath) := by
  intro e he
  unfold calls_match_edges at he
  rcases h : calls_scan_captures m.captures with ⟨lib, method, url⟩
  rw [h] at he
  cases lib with
  | none => cases method <;> cases url <;> simp at he
  | some lb =>
    cases method with
    | none => cases url <;> simp at he
    | some mth =>
      cases url with
      | none => simp at he
      | some u =>
        by_cases hlib : lb = "requests".data ∨ lb = "httpx".data
        · simp only [if_pos hlib, List.mem_singleton] at he
          subst he
          rfl
        · simp [if_neg hlib] at he

/-- C10: every endpoint and every edge produced by the Python plugin's
`parse_file` records, as its provenance `file`, the **basename** of the
scanned file path, while the produced `Service` records the **full** path in
its `path` field; correspondingly, `manifest_remove_file` removes endpoints
and edges by comparing their provenance against `path_basename` of its
argument while removing the full path from each service's file list. -/
theorem provenance_basenames :
    (∀ (filepath service_name : String) (rms cms : List TSMatch),
      (∀ ep ∈ (python_parse_file filepath service_name rms cms).endpoints,
        ep.file = some (path_basename filepath)) ∧
      (∀ e ∈ (python_parse_file filepath service_name rms cms).edges,
        e.file = some (path_basename filepath)) ∧
      (python_parse_file filepath service_name rms cms).service.path = filepath) ∧
    (∀ (m : Manifest) (p : String),
      (manifest_remove_file m p).endpoints
          = m.endpoints.filter (fun ep => !(ep.file == some (path_basename p))) ∧
      (manifest_remove_file m p).edges
          = m.edges.filter (fun e => !(e.file == some (path_basename p))) ∧
      (manifest_remove_file m p).services
          = m.services.map (fun s =>
              { s with files := s.files.eraseP (fun f => f == p) })) := by
  constructor
  · intro filepath service_name rms cms
    refine ⟨?_, ?_, rfl⟩
    · intro ep hep
      obtain ⟨mm, -, hmem⟩ := List.mem_flatMap.mp hep
      exact routes_match_endpoints_file service_name filepath mm ep hmem
    · intro e he
      obtain ⟨mm, -, hmem⟩ := List.mem_flatMap.mp he
      exact calls_match_edges_file service_name filepath mm e hmem
  · intro m p
    exact ⟨rfl, rfl, rfl⟩

/-- Witness input for C10: the match stream produced for a source containing
a Flask-style route decorator. -/
def routes_match_W : TSMatch :=
  { captures :=
      [{ name := "route.decorator", text := "route".data, row := 3 },
       { name := "route.path", text := "\"/health\"".data, row := 3 },
       { name := "route.handler", text := "health".data, row := 4 }] }

/-- Witness for C10: parsing `services/auth/api.py` yields an endpoint whose
provenance file is the basename `api.py`, not the full path. -/
theorem provenance_basenames_witness :
    (endpoint_create "auth" "/health" HttpMethod.get (some "health")
        (some "api.py") 4).file
      = some (path_basename "services/auth/api.py") :=
  (provenance_basenames.1 "services/auth/api.py" "auth" [routes_match_W] []).1
    _ (by decide)

/-! ## `src/core/cache.c`

The cache state keeps the live entries as a list in LRU order (head = most
recently used, tail = least recently used: `lru_head`/`lru_tail`), together
with the counter fields the C code maintains (`entry_count`, `total_bytes`,
`hits`, `misses`) and the limits.  The hash table of src/core/cache.h is an
index over the same node set: a bucket's chain holds, newest insertion first,
the nodes whose path hashes to it, and lookups walk the chain comparing full
paths with `strcmp`.  The model therefore keeps `tableOrder`, the list of
live paths in insertion order (newest first); bucket `b`'s chain is its
restriction to paths hashing to `b`, which is what `cache_manager_save`
iterates.  Lookups find the entry with the queried path; under the data
structure's invariant (each path appears at most once, specification §3) this
is exactly the chain walk. -/

def HASH_TABLE_SIZE : Nat := 8192
def CACHE_VERSION : Nat := 1
def DEFAULT_MAX_ENTRIES : Nat := 50000
def DEFAULT_MAX_BYTES : Nat := 50 * 1024 * 1024

/-- `sizeof(CacheEntry)` on the LP64 platforms the code targets: `char*` (8) +
`time_t` (8) + `uint32_t` (4, padded to 8) + `size_t` (8) + `time_t` (8). -/
def sizeof_CacheEntry : Nat := 40

/-- One round of the CRC-32 inner loop (src/core/cache.c:15):
`crc = (crc >> 1) ^ (0xEDB88320 & -(crc & 1))`. -/
def crc32_round (crc : Nat) : Nat :=
  (crc >>> 1) ^^^ (if crc % 2 = 1 then 0xEDB88320 else 0)

/-- `crc32` (src/core/cache.c:9–20) over the file's bytes. -/
def crc32 (data : List Nat) : Nat :=
  0xFFFFFFFF ^^^ data.foldl (fun crc b => crc32_round^[8] (crc ^^^ b % 256)) 0xFFFFFFFF

/-- `hash_filepath` (src/core/cache.c:23–30): djb2 in `uint32_t` arithmetic,
reduced modulo `HASH_TABLE_SIZE`.  (The C loop reads the path through a plain
`char`; for the 7-bit path bytes assumed throughout, `Char.toNat` coincides
with that signed read.) -/
def hash_filepath (s : String) : Nat :=
  (s.data.foldl (fun h c => (h * 33 + c.toNat) % 4294967296) 5381) % HASH_TABLE_SIZE

/-- What `stat`+`fopen`+`fread` observe about a file: its `st_mtime` and its
byte content (`st_size` = number of bytes). -/
structure FileData where
  mtime : Int
  bytes : List Nat
deriving DecidableEq, Repr

/-- `CacheEntry` (src/core/cache.h:17–23). -/
structure CacheEntry where
  filepath : String
  mtime : Int
  hash : Nat
  size : Nat
  last_accessed : Int
deriving DecidableEq, Repr

/-- The metadata footprint the C code charges an entry with:
`sizeof(CacheEntry) + strlen(filepath)`. -/
def entry_bytes (e : CacheEntry) : Nat :=
  sizeof_CacheEntry + e.filepath.length

def lru_bytes (l : List CacheEntry) : Nat :=
  (l.map entry_bytes).sum

/-- `CacheManager` (src/core/cache.h:36–51); see the section comment for the
`lru`/`tableOrder` representation.  `cache_file` is the snapshot's location on
disk and plays no role beyond naming the file. -/
@[ext]
structure CacheManager where
  lru : List CacheEntry
  tableOrder : List String
  entry_count : Nat
  total_bytes : Nat
  hits : Nat
  misses : Nat
  max_entries : Nat
  max_bytes : Nat
deriving DecidableEq, Repr

/-- `cache_manager_create` (src/core/cache.c:130–147): empty cache with the
default limits. -/
def cache_manager_create : CacheManager :=
  { lru := [], tableOrder := [], entry_count := 0, total_bytes := 0,
    hits := 0, misses := 0,
    max_entries := DEFAULT_MAX_ENTRIES, max_bytes := DEFAULT_MAX_BYTES }

/-- The bucket-chain lookup of src/core/cache.c:311–315 and 376–380: find the
entry whose path compares equal by `strcmp`. -/
def cache_lookup (c : CacheManager) (filepath : String) : Option CacheEntry :=
  c.lru.find? (fun e => e.filepath == filepath)

/-- `cache_evict_lru` (src/core/cache.c:84–113): remove the tail of the LRU
list from the lookup index and the list, and debit the counters.  (On an
empty list the C function returns without change.) -/
def cache_evict_lru (c : CacheManager) : CacheManager :=
  match c.lru.getLast? with
  | none => c
  | some victim =>
    { c with
      lru := c.lru.dropLast,
      tableOrder := c.tableOrder.eraseP (fun q => q == victim.filepath),
      entry_count := c.entry_count - 1,
      total_bytes := c.total_bytes - entry_bytes victim }

/- The two `while` loops of `cache_enforce_limits` (src/core/cache.c:116–128),
written with explicit fuel so that they are structurally recursive; the fuel
`c.lru.length` is exact: every iteration drops one entry, and once the list is
empty `cache_evict_lru` makes no further progress (on counter-consistent
states the list empties only when `entry_count`/`total_bytes` have reached 0,
so the added `lru ≠ []` test never alters the exit condition; on states whose
counters disagree with the list the C loop would not terminate at all). -/

def cache_evict_count_go : Nat → CacheManager → CacheManager
  | 0, c => c
  | fuel + 1, c =>
    if 0 < c.max_entries ∧ c.max_entries < c.entry_count ∧ c.lru ≠ [] then
      cache_evict_count_go fuel (cache_evict_lru c)
    else c

def cache_evict_bytes_go : Nat → CacheManager → CacheManager
  | 0, c => c
  | fuel + 1, c =>
    if 0 < c.max_bytes ∧ c.max_bytes < c.total_bytes ∧ c.lru ≠ [] then
      cache_evict_bytes_go fuel (cache_evict_lru c)
    else c

/-- `cache_enforce_limits` (src/core/cache.c:116–128): evict by entry count
first, then by byte budget. -/
def cache_enforce_limits (c : CacheManager) : CacheManager :=
  let c1 := cache_evict_count_go c.lru.length c
  cache_evict_bytes_go c1.lru.length c1

/-- `cache_set_limits` (src/core/cache.c:149–159). -/
def cache_set_limits (c : CacheManager) (max_entries max_bytes : Nat) : CacheManager :=
  cache_enforce_limits { c with max_entries := max_entries, max_bytes := max_bytes }

/-- `cache_is_file_changed` (src/core/cache.c:301–339).  `fd?` is what `stat`
observed (`none` = stat failure), `now` is `time(NULL)`.  On a found entry the
access time is refreshed and the node promoted (`lru_touch`) *before* the
`(mtime, size)` comparison; on stat failure the function returns `true`
without touching any counter. -/
def cache_is_file_changed (fd? : Option FileData) (now : Int) (c : CacheManager)
    (filepath : String) : Bool × CacheManager :=
  match fd? with
  | none => (true, c)
  | some fd =>
    match cache_lookup c filepath with
    | some e =>
      let e' := { e with last_accessed := now }
      let c' := { c with lru := e' :: c.lru.eraseP (fun x => x.filepath == filepath) }
      if e.mtime = fd.mtime ∧ e.size = fd.bytes.length then
        (false, { c' with hits := c'.hits + 1 })
      else
        (true, { c' with misses := c'.misses + 1 })
    | none => (true, { c with misses := c.misses + 1 })

/-- `cache_update_file` (src/core/cache.c:341–425).  `fd?` is what
`stat`/`fopen`/`fread` observed.  Files over 10 MiB are rejected.  An
existing entry is overwritten in place and promoted — with **no** limit
enforcement on this path; a new entry is prepended to its hash chain and to
the LRU list, the counters are credited, and then the limits are enforced. -/
def cache_update_file (fd? : Option FileData) (now : Int) (c : CacheManager)
    (filepath : String) : Bool × CacheManager :=
  match fd? with
  | none => (false, c)
  | some fd =>
    if fd.bytes.length > 10 * 1024 * 1024 then (false, c)
    else
      let e' : CacheEntry :=
        { filepath := filepath, mtime := fd.mtime, hash := crc32 fd.bytes,
          size := fd.bytes.length, last_accessed := now }
      match cache_lookup c filepath with
      | some _ =>
        (true, { c with lru := e' :: c.lru.eraseP (fun x => x.filepath == filepath) })
      | none =>
        (true, cache_enforce_limits
          { c with
            lru := e' :: c.lru,
            tableOrder := filepath :: c.tableOrder,
            entry_count := c.entry_count + 1,
            total_bytes := c.total_bytes + entry_bytes e' })

/-- `cache_clear` (src/core/cache.c:427–447): drops all entries and resets
counts and hit/miss statistics (the limits are left alone). -/
def cache_clear (c : CacheManager) : CacheManager :=
  { c with
    lru := [], tableOrder := [], entry_count := 0, total_bytes := 0,
    hits := 0, misses := 0 }

/-! ### The binary snapshot (`cache_manager_save` / `cache_manager_load`)

The snapshot is a little-endian byte sequence: `u32 version`, `size_t count`,
then per entry `u16 path_len`, the raw path bytes, `time_t mtime`,
`u32 fingerprint`, `size_t size`, `time_t last_accessed` (`size_t` and
`time_t` are 8 bytes on the target platforms, `time_t` two's-complement).
An `fread` of a field either yields the whole field or fails (truncation). -/

/-- `width` little-endian bytes of `v % 2 ^ (8 * width)`. -/
def le_bytes : Nat → Nat → List Nat
  | 0, _ => []
  | w + 1, v => v % 256 :: le_bytes w (v / 256)

/-- Read a `width`-byte little-endian field; `none` when fewer bytes remain
(a short `fread`). -/
def read_le : Nat → List Nat → Option (Nat × List Nat)
  | 0, bs => some (0, bs)
  | _ + 1, [] => none
  | w + 1, b :: bs => (read_le w bs).map (fun vr => (b + 256 * vr.1, vr.2))

/-- Read `n` raw bytes (the path); `none` when fewer remain. -/
def read_bytes (n : Nat) (bs : List Nat) : Option (List Nat × List Nat) :=
  if n ≤ bs.length then some (bs.take n, bs.drop n) else none

/-- A `time_t` as the 8-byte two's-complement pattern the C code writes. -/
def toTwos (m : Int) : Nat :=
  (m % (2 ^ 64 : Int)).toNat

/-- The `time_t` value denoted by an 8-byte two's-complement pattern. -/
def fromTwos (n : Nat) : Int :=
  if n < 2 ^ 63 then (n : Int) else (n : Int) - 2 ^ 64

/-- The bytes `cache_manager_save` writes for one entry
(src/core/cache.c:281–287).  `uint16_t path_len = strlen(...)` truncates the
length, and exactly `path_len` bytes of the path follow. -/
def encode_entry (e : CacheEntry) : List Nat :=
  let path_len := e.filepath.length % 65536
  le_bytes 2 path_len ++
  (e.filepath.data.map Char.toNat).take path_len ++
  le_bytes 8 (toTwos e.mtime) ++
  le_bytes 4 e.hash ++
  le_bytes 8 e.size ++
  le_bytes 8 (toTwos e.last_accessed)

/-- The staged reads of one entry record (src/core/cache.c:192–217): path
length, path bytes, then `mtime`, `hash`, `size`, `last_accessed`; any short
read aborts the record (`break`), so an entry is produced all-or-nothing. -/
def read_entry (bs : List Nat) : Option (CacheEntry × List Nat) :=
  (read_le 2 bs).bind fun plr =>
  (read_bytes plr.1 plr.2).bind fun pbr =>
  (read_le 8 pbr.2).bind fun mtr =>
  (read_le 4 mtr.2).bind fun hr =>
  (read_le 8 hr.2).bind fun szr =>
  (read_le 8 szr.2).map fun lar =>
  ({ filepath := ⟨pbr.1.map Char.ofNat⟩, mtime := fromTwos mtr.1,
     hash := hr.1, size := szr.1, last_accessed := fromTwos lar.1 }, lar.2)

/-- Installing one loaded entry (src/core/cache.c:219–247): prepend to its
hash chain, append at the LRU **tail** (snapshot order = recency order, first
record most recent), credit the counters. -/
def cache_add_loaded (c : CacheManager) (e : CacheEntry) : CacheManager :=
  { c with
    lru := c.lru ++ [e],
    tableOrder := e.filepath :: c.tableOrder,
    entry_count := c.entry_count + 1,
    total_bytes := c.total_bytes + entry_bytes e }

/-- The entry-reading loop of `cache_manager_load`
(src/core/cache.c:191–248): up to `count` records; the first failed record
read stops the loop, keeping everything read so far.  (The C loop's
out-of-memory branches — `malloc`/`calloc` returning NULL, which skip a
record — are not modelled: allocation is assumed to succeed.) -/
def cache_load_entries : CacheManager → List Nat → Nat → CacheManager
  | c, _, 0 => c
  | c, bs, n + 1 =>
    match read_entry bs with
    | none => c
    | some er => cache_load_entries (cache_add_loaded c er.1) er.2 n

/-- `cache_manager_load` (src/core/cache.c:161–259).  The file is `none` when
missing (`fopen` failure → success, fresh start).  A short or mismatched
version field degrades to success with the cache untouched; a missing entry
count is an error (`false`); otherwise the records are read and the limits
enforced. -/
def cache_manager_load (c : CacheManager) (file : Option (List Nat)) :
    Bool × CacheManager :=
  match file with
  | none => (true, c)
  | some bs =>
    match read_le 4 bs with
    | none => (true, c)
    | some vr =>
      if vr.1 ≠ CACHE_VERSION then (true, c)
      else
        match read_le 8 vr.2 with
        | none => (false, c)
        | some cr => (true, cache_enforce_limits (cache_load_entries c cr.2 cr.1))

/-- Bucket `b`'s chain: the live paths hashing to `b`, newest insertion
first (nodes are pushed on the front of their chain). -/
def bucket_chain (c : CacheManager) (b : Nat) : List String :=
  c.tableOrder.filter (fun p => hash_filepath p == b)

/-- The order in which `cache_manager_save` (src/core/cache.c:278–291) visits
the entries: buckets `0 .. HASH_TABLE_SIZE-1` in order, each chain front to
back; each visited path contributes its (unique, under the data structure
invariant) entry. -/
def cache_save_order (c : CacheManager) : List CacheEntry :=
  (List.range HASH_TABLE_SIZE).flatMap
    (fun b => (bucket_chain c b).filterMap (fun p => cache_lookup c p))

/-- `cache_manager_save` (src/core/cache.c:261–299): version, entry count,
then every entry in hash-table iteration order. -/
def cache_manager_save (c : CacheManager) : List Nat :=
  le_bytes 4 CACHE_VERSION ++ le_bytes 8 c.entry_count ++
  (cache_save_order c).flatMap encode_entry

/-! ### Operation sequences

One cache operation, carrying what the environment (file system, clock, the
snapshot file) presented to that call.  `cache_run_ops` starting from
`cache_manager_create` ranges over every sequence of cache operations. -/

inductive CacheOp where
  | setLimits (max_entries max_bytes : Nat)
  | update (filepath : String) (fd? : Option FileData) (now : Int)
  | isChanged (filepath : String) (fd? : Option FileData) (now : Int)
  | clear
  | load (file : Option (List Nat))
deriving DecidableEq, Repr

def cache_run_op (c : CacheManager) : CacheOp → CacheManager
  | .setLimits max_entries max_bytes => cache_set_limits c max_entries max_bytes
  | .update filepath fd? now => (cache_update_file fd? now c filepath).2
  | .isChanged filepath fd? now => (cache_is_file_changed fd? now c filepath).2
  | .clear => cache_clear c
  | .load file => (cache_manager_load c file).2

def cache_run_ops (c : CacheManager) (ops : List CacheOp) : CacheManager :=
  ops.foldl cache_run_op c

/-- The counter consistency invariant of specification §3: `entry_count` and
`total_bytes` exactly reflect the live set. -/
def CacheCountsOk (c : CacheManager) : Prop :=
  c.entry_count = c.lru.length ∧ c.total_bytes = lru_bytes c.lru

/-- The bound the eviction machinery maintains (0 = unlimited, unenforced). -/
def CacheLimitsOk (c : CacheManager) : Prop :=
  (0 < c.max_entries → c.entry_count ≤ c.max_entries) ∧
  (0 < c.max_bytes → c.total_bytes ≤ c.max_bytes)

/-! ### The eviction invariant (C1) -/

theorem lru_bytes_append (l₁ l₂ : List CacheEntry) :
    lru_bytes (l₁ ++ l₂) = lru_bytes l₁ + lru_bytes l₂ := by
  simp [lru_bytes]

theorem lru_bytes_cons (e : CacheEntry) (l : List CacheEntry) :
    lru_bytes (e :: l) = entry_bytes e + lru_bytes l := by
  simp [lru_bytes]

theorem cache_evict_lru_fields (c : CacheManager) :
    (cache_evict_lru c).max_entries = c.max_entries ∧
    (cache_evict_lru c).max_bytes = c.max_bytes ∧
    (cache_evict_lru c).hits = c.hits ∧
    (cache_evict_lru c).misses = c.misses ∧
    (cache_evict_lru c).lru = c.lru.dropLast := by
  unfold cache_evict_lru
  cases h : c.lru.getLast? with
  | none =>
    have : c.lru = [] := List.getLast?_eq_none_iff.mp h
    simp [this]
  | some v => simp

theorem cache_evict_lru_counts {c : CacheManager} (h : CacheCountsOk c) :
    CacheCountsOk (cache_evict_lru c) := by
  unfold cache_evict_lru
  cases hl : c.lru.getLast? with
  | none => exact h
  | some v =>
    have hne : c.lru ≠ [] := by
      intro hnil
      rw [hnil] at hl
      simp at hl
    have hdecomp : c.lru.dropLast ++ [c.lru.getLast hne] = c.lru :=
      List.dropLast_append_getLast hne
    have hv : c.lru.getLast hne = v := by
      have := List.getLast?_eq_getLast c.lru hne
      rw [this] at hl
      exact Option.some_injective _ hl
    rw [hv] at hdecomp
    constructor
    · simp only [CacheCountsOk] at h
      have hlen : c.lru.length = c.lru.dropLast.length + 1 := by
        conv_lhs => rw [← hdecomp]
        simp
      simp only
      omega
    · have hbytes : lru_bytes c.lru = lru_bytes c.lru.dropLast + entry_bytes v := by
        conv_lhs => rw [← hdecomp]
        simp [lru_bytes_append, lru_bytes]
      simp only [CacheCountsOk] at h
      simp only
      omega

theorem cache_evict_count_go_prefix :
    ∀ (fuel : Nat) (c : CacheManager),
      ∃ k, (cache_evict_count_go fuel c).lru = c.lru.take k := by
  intro fuel
  induction fuel with
  | zero => exact fun c => ⟨c.lru.length, by simp [cache_evict_count_go]⟩
  | succ n ih =>
    intro c
    unfold cache_evict_count_go
    split
    · obtain ⟨k, hk⟩ := ih (cache_evict_lru c)
      refine ⟨min k (c.lru.length - 1), ?_⟩
      rw [hk, (cache_evict_lru_fields c).2.2.2.2, List.dropLast_eq_take,
        List.take_take]
    · exact ⟨c.lru.length, by simp⟩

theorem cache_evict_bytes_go_prefix :
    ∀ (fuel : Nat) (c : CacheManager),
      ∃ k, (cache_evict_bytes_go fuel c).lru = c.lru.take k := by
  intro fuel
  induction fuel with
  | zero => exact fun c => ⟨c.lru.length, by simp [cache_evict_bytes_go]⟩
  | succ n ih =>
    intro c
    unfold cache_evict_bytes_go
    split
    · obtain ⟨k, hk⟩ := ih (cache_evict_lru c)
      refine ⟨min k (c.lru.length - 1), ?_⟩
      rw [hk, (cache_evict_lru_fields c).2.2.2.2, List.dropLast_eq_take,
        List.take_take]
    · exact ⟨c.lru.length, by simp⟩

theorem cache_evict_count_go_spec :
    ∀ (fuel : Nat) (c : CacheManager), CacheCountsOk c →
      CacheCountsOk (cache_evict_count_go fuel c) ∧
      (cache_evict_count_go fuel c).max_entries = c.max_entries ∧
      (cache_evict_count_go fuel c).max_bytes = c.max_bytes ∧
      (cache_evict_count_go fuel c).hits = c.hits ∧
      (cache_evict_count_go fuel c).misses = c.misses := by
  intro fuel
  induction fuel with
  | zero => exact fun c h => ⟨h, rfl, rfl, rfl, rfl⟩
  | succ n ih =>
    intro c h
    unfold cache_evict_count_go
    split
    · obtain ⟨h1, h2, h3, h4, h5⟩ := ih (cache_evict_lru c) (cache_evict_lru_counts h)
      obtain ⟨f1, f2, f3, f4, -⟩ := cache_evict_lru_fields c
      exact ⟨h1, h2.trans f1, h3.trans f2, h4.trans f3, h5.trans f4⟩
    · exact ⟨h, rfl, rfl, rfl, rfl⟩

theorem cache_evict_bytes_go_spec :
    ∀ (fuel : Nat) (c : CacheManager), CacheCountsOk c →
      CacheCountsOk (cache_evict_bytes_go fuel c) ∧
      (cache_evict_bytes_go fuel c).max_entries = c.max_entries ∧
      (cache_evict_bytes_go fuel c).max_bytes = c.max_bytes ∧
      (cache_evict_bytes_go fuel c).hits = c.hits ∧
      (cache_evict_bytes_go fuel c).misses = c.misses := by
  intro fuel
  induction fuel with
  | zero => exact fun c h => ⟨h, rfl, rfl, rfl, rfl⟩
  | succ n ih =>
    intro c h
    unfold cache_evict_bytes_go
    split
    · obtain ⟨h1, h2, h3, h4, h5⟩ := ih (cache_evict_lru c) (cache_evict_lru_counts h)
      obtain ⟨f1, f2, f3, f4, -⟩ := cache_evict_lru_fields c
      exact ⟨h1, h2.trans f1, h3.trans f2, h4.trans f3, h5.trans f4⟩
    · exact ⟨h, rfl, rfl, rfl, rfl⟩

/-- With enough fuel (one unit per live entry) the count loop reaches its
exit condition. -/
theorem cache_evict_count_go_exit :
    ∀ (fuel : Nat) (c : CacheManager), CacheCountsOk c → c.lru.length ≤ fuel →
      (0 < (cache_evict_count_go fuel c).max_entries →
        (cache_evict_count_go fuel c).entry_count ≤
          (cache_evict_count_go fuel c).max_entries) := by
  intro fuel
  induction fuel with
  | zero =>
    intro c h hf _
    have : c.lru = [] := List.length_eq_zero.mp (Nat.le_zero.mp hf)
    simp [cache_evict_count_go, h.1, this]
  | succ n ih =>
    intro c h hf
    unfold cache_evict_count_go
    split
    · rename_i hcond
      apply ih (cache_evict_lru c) (cache_evict_lru_counts h)
      rw [(cache_evict_lru_fields c).2.2.2.2]
      have : c.lru ≠ [] := hcond.2.2
      have := List.length_pos.mpr this
      simp only [List.length_dropLast]
      omega
    · rename_i hcond
      intro hmax
      by_contra hgt
      push_neg at hgt
      exact hcond ⟨hmax, hgt, by
        intro hnil
        have : c.entry_count = 0 := by rw [h.1, hnil]; rfl
        omega⟩

/-- With enough fuel the byte loop reaches its exit condition. -/
theorem cache_evict_bytes_go_exit :
    ∀ (fuel : Nat) (c : CacheManager), CacheCountsOk c → c.lru.length ≤ fuel →
      (0 < (cache_evict_bytes_go fuel c).max_bytes →
        (cache_evict_bytes_go fuel c).total_bytes ≤
          (cache_evict_bytes_go fuel c).max_bytes) := by
  intro fuel
  induction fuel with
  | zero =>
    intro c h hf _
    have hnil : c.lru = [] := List.length_eq_zero.mp (Nat.le_zero.mp hf)
    have : c.total_bytes = 0 := by rw [h.2, hnil]; rfl
    simp [cache_evict_bytes_go, this]
  | succ n ih =>
    intro c h hf
    unfold cache_evict_bytes_go
    split
    · rename_i hcond
      apply ih (cache_evict_lru c) (cache_evict_lru_counts h)
      rw [(cache_evict_lru_fields c).2.2.2.2]
      have : c.lru ≠ [] := hcond.2.2
      have := List.length_pos.mpr this
      simp only [List.length_dropLast]
      omega
    · rename_i hcond
      intro hmax
      by_contra hgt
      push_neg at hgt
      exact hcond ⟨hmax, hgt, by
        intro hnil
        have : c.total_bytes = 0 := by rw [h.2, hnil]; rfl
        omega⟩

/-- `cache_enforce_limits` on a counter-consistent cache: counters stay
consistent, the statistics and limits are untouched, both active bounds hold
afterwards, and the surviving LRU list is a prefix of the original (victims
are taken one at a time from the least-recently-used end). -/
theorem cache_enforce_limits_spec {c : CacheManager} (h : CacheCountsOk c) :
    CacheCountsOk (cache_enforce_limits c) ∧
    CacheLimitsOk (cache_enforce_limits c) ∧
    (cache_enforce_limits c).max_entries = c.max_entries ∧
    (cache_enforce_limits c).max_bytes = c.max_bytes ∧
    (cache_enforce_limits c).hits = c.hits ∧
    (cache_enforce_limits c).misses = c.misses := by
  unfold cache_enforce_limits
  obtain ⟨h1, e1, e2, e3, e4⟩ := cache_evict_count_go_spec c.lru.length c h
  set c1 := cache_evict_count_go c.lru.length c with hc1
  obtain ⟨h2, f1, f2, f3, f4⟩ := cache_evict_bytes_go_spec c1.lru.length c1 h1
  have hcountbound := cache_evict_count_go_exit c.lru.length c h le_rfl
  rw [← hc1] at hcountbound
  have hbytebound := cache_evict_bytes_go_exit c1.lru.length c1 h1 le_rfl
  refine ⟨h2, ⟨?_, ?_⟩, f1.trans e1, f2.trans e2, f3.trans e3, f4.trans e4⟩
  · intro hpos
    obtain ⟨k, hk⟩ := cache_evict_bytes_go_prefix c1.lru.length c1
    have hlen : (cache_evict_bytes_go c1.lru.length c1).lru.length ≤ c1.lru.length := by
      rw [hk]
      simp [List.length_take]
    have hc2count : (cache_evict_bytes_go c1.lru.length c1).entry_count ≤ c1.entry_count := by
      rw [h2.1, h1.1]
      exact hlen
    have : c1.entry_count ≤ c1.max_entries := hcountbound (by rwa [← f1])
    calc (cache_evict_bytes_go c1.lru.length c1).entry_count
        ≤ c1.entry_count := hc2count
      _ ≤ c1.max_entries := this
      _ = (cache_evict_bytes_go c1.lru.length c1).max_entries := f1.symm
  · exact hbytebound

/-- The one-call prefix fact behind C1's eviction-order statement, valid for
every cache state: enforcement only ever removes a suffix of the LRU list. -/
theorem cache_enforce_limits_prefix (c : CacheManager) :
    ∃ k, (cache_enforce_limits c).lru = c.lru.take k := by
  unfold cache_enforce_limits
  obtain ⟨k1, hk1⟩ := cache_evict_count_go_prefix c.lru.length c
  obtain ⟨k2, hk2⟩ :=
    cache_evict_bytes_go_prefix (cache_evict_count_go c.lru.length c).lru.length
      (cache_evict_count_go c.lru.length c)
  exact ⟨min k2 k1, by rw [hk2, hk1, List.take_take]⟩

/-- Promoting an entry (`lru_touch` after overwriting its fields in place)
neither changes the number of live entries nor the byte total, as long as the
replacement entry has the looked-up path. -/
theorem touch_counts (e' : CacheEntry) {l : List CacheEntry} {p : String}
    {e : CacheEntry}
    (hfind : l.find? (fun x => x.filepath == p) = some e)
    (hpath : e'.filepath = p) :
    (e' :: l.eraseP (fun x => x.filepath == p)).length = l.length ∧
    lru_bytes (e' :: l.eraseP (fun x => x.filepath == p)) = lru_bytes l := by
  have hmem : e ∈ l := List.mem_of_find?_eq_some hfind
  have hpred := List.find?_some (p := fun x : CacheEntry => x.filepath == p) hfind
  obtain ⟨b, l₁, l₂, hl₁, hpb, hsplit, herase⟩ :=
    List.exists_of_eraseP (p := fun x : CacheEntry => x.filepath == p) hmem hpred
  have hbp : b.filepath = p := by simpa using hpb
  constructor
  · rw [herase, hsplit]
    simp
    omega
  · rw [herase, hsplit, lru_bytes_cons, lru_bytes_append, lru_bytes_append,
      lru_bytes_cons]
    have : entry_bytes e' = entry_bytes b := by
      simp [entry_bytes, hpath, hbp]
    omega

theorem cache_add_loaded_counts {c : CacheManager} (e : CacheEntry)
    (h : CacheCountsOk c) : CacheCountsOk (cache_add_loaded c e) := by
  obtain ⟨h1, h2⟩ := h
  constructor
  · simp [cache_add_loaded, h1]
  · simp [cache_add_loaded, lru_bytes_append, lru_bytes_cons, lru_bytes, h2]

theorem cache_load_entries_counts :
    ∀ (n : Nat) (c : CacheManager) (bs : List Nat),
      CacheCountsOk c → CacheCountsOk (cache_load_entries c bs n) := by
  intro n
  induction n with
  | zero => exact fun c bs h => h
  | succ m ih =>
    intro c bs h
    unfold cache_load_entries
    cases read_entry bs with
    | none => exact h
    | some er => exact ih _ _ (cache_add_loaded_counts er.1 h)

/-- Every cache operation preserves counter consistency and both active
bounds. -/
theorem cache_run_op_inv {c : CacheManager} (op : CacheOp)
    (h : CacheCountsOk c ∧ CacheLimitsOk c) :
    CacheCountsOk (cache_run_op c op) ∧ CacheLimitsOk (cache_run_op c op) := by
  obtain ⟨hc, hl⟩ := h
  cases op with
  | setLimits me mb =>
    have hc' : CacheCountsOk { c with max_entries := me, max_bytes := mb } := hc
    obtain ⟨h1, h2, -⟩ := cache_enforce_limits_spec hc'
    exact ⟨h1, h2⟩
  | update p fd? now =>
    cases fd? with
    | none => exact ⟨hc, hl⟩
    | some fd =>
      show CacheCountsOk (cache_update_file (some fd) now c p).2 ∧
        CacheLimitsOk (cache_update_file (some fd) now c p).2
      simp only [cache_update_file]
      by_cases hcap : fd.bytes.length > 10 * 1024 * 1024
      · rw [if_pos hcap]
        exact ⟨hc, hl⟩
      · rw [if_neg hcap]
        cases hfind : cache_lookup c p with
        | some e =>
          simp only
          have ht := touch_counts
            { filepath := p, mtime := fd.mtime, hash := crc32 fd.bytes,
              size := fd.bytes.length, last_accessed := now } hfind rfl
          refine ⟨⟨?_, ?_⟩, hl⟩
          · rw [ht.1]
            exact hc.1
          · rw [ht.2]
            exact hc.2
        | none =>
          simp only
          have hc' : CacheCountsOk
              { c with
                lru := { filepath := p, mtime := fd.mtime, hash := crc32 fd.bytes,
                         size := fd.bytes.length, last_accessed := now } :: c.lru,
                tableOrder := p :: c.tableOrder,
                entry_count := c.entry_count + 1,
                total_bytes := c.total_bytes + entry_bytes
                  { filepath := p, mtime := fd.mtime, hash := crc32 fd.bytes,
                    size := fd.bytes.length, last_accessed := now } } := by
            refine ⟨?_, ?_⟩
            · simp [hc.1]
            · simp [lru_bytes_cons, hc.2]
              omega
          obtain ⟨h1, h2, -⟩ := cache_enforce_limits_spec hc'
          exact ⟨h1, h2⟩
  | isChanged p fd? now =>
    cases fd? with
    | none => exact ⟨hc, hl⟩
    | some fd =>
      show CacheCountsOk (cache_is_file_changed (some fd) now c p).2 ∧
        CacheLimitsOk (cache_is_file_changed (some fd) now c p).2
      simp only [cache_is_file_changed]
      cases hfind : cache_lookup c p with
      | some e =>
        simp only
        have hfp : ({ e with last_accessed := now } : CacheEntry).filepath = p := by
          have h5 := List.find?_some hfind
          simpa using h5
        have ht := touch_counts { e with last_accessed := now } hfind hfp
        by_cases hsame : e.mtime = fd.mtime ∧ e.size = fd.bytes.length
        · rw [if_pos hsame]
          exact ⟨⟨by rw [ht.1]; exact hc.1, by rw [ht.2]; exact hc.2⟩, hl⟩
        · rw [if_neg hsame]
          exact ⟨⟨by rw [ht.1]; exact hc.1, by rw [ht.2]; exact hc.2⟩, hl⟩
      | none => exact ⟨hc, hl⟩
  | clear =>
    refine ⟨⟨rfl, rfl⟩, ?_, ?_⟩ <;> intro <;> exact Nat.zero_le _
  | load file =>
    cases file with
    | none => exact ⟨hc, hl⟩
    | some bs =>
      show CacheCountsOk (cache_manager_load c (some bs)).2 ∧
        CacheLimitsOk (cache_manager_load c (some bs)).2
      simp only [cache_manager_load]
      cases read_le 4 bs with
      | none => exact ⟨hc, hl⟩
      | some vr =>
        simp only
        by_cases hv : vr.1 ≠ CACHE_VERSION
        · rw [if_pos hv]
          exact ⟨hc, hl⟩
        · rw [if_neg hv]
          cases read_le 8 vr.2 with
          | none => exact ⟨hc, hl⟩
          | some cr =>
            simp only
            obtain ⟨h1, h2, -⟩ :=
              cache_enforce_limits_spec (cache_load_entries_counts cr.1 c cr.2 hc)
            exact ⟨h1, h2⟩

theorem cache_run_ops_inv :
    ∀ (ops : List CacheOp) (c : CacheManager),
      CacheCountsOk c ∧ CacheLimitsOk c →
      CacheCountsOk (cache_run_ops c ops) ∧ CacheLimitsOk (cache_run_ops c ops) := by
  intro ops
  induction ops with
  | nil => exact fun c h => h
  | cons op rest ih => exact fun c h => ih _ (cache_run_op_inv op h)

/-- C1: along every sequence of cache operations starting from
`cache_manager_create`, the active bounds hold after every call (in
particular after every `cache_update_file` and `cache_set_limits`): a
positive `max_entries` bounds `entry_count` and a positive `max_bytes` bounds
`total_bytes`, a bound of 0 being unlimited.  Moreover every run of
`cache_enforce_limits` — the only place entries are evicted, one at a time,
by entry count first and then by byte budget — leaves a *prefix* of the LRU
order: the evicted entries are exactly the least-recently-touched suffix at
eviction time. -/
theorem cache_eviction_invariant :
    (∀ ops : List CacheOp,
      (0 < (cache_run_ops cache_manager_create ops).max_entries →
        (cache_run_ops cache_manager_create ops).entry_count ≤
          (cache_run_ops cache_manager_create ops).max_entries) ∧
      (0 < (cache_run_ops cache_manager_create ops).max_bytes →
        (cache_run_ops cache_manager_create ops).total_bytes ≤
          (cache_run_ops cache_manager_create ops).max_bytes)) ∧
    (∀ c : CacheManager, ∃ k, (cache_enforce_limits c).lru = c.lru.take k) := by
  constructor
  · intro ops
    have hinit : CacheCountsOk cache_manager_create ∧
        CacheLimitsOk cache_manager_create := by
      refine ⟨⟨rfl, rfl⟩, ?_, ?_⟩ <;> intro <;> exact Nat.zero_le _
    exact (cache_run_ops_inv ops cache_manager_create hinit).2
  · exact cache_enforce_limits_prefix

/-- Witness for C1: a concrete run — limits set to one entry, two files
updated — ends with the entry count within the bound. -/
theorem cache_eviction_invariant_witness :
    (cache_run_ops cache_manager_create
        [CacheOp.setLimits 1 0,
         CacheOp.update "a" (some ⟨1, [65]⟩) 10,
         CacheOp.update "b" (some ⟨2, [66]⟩) 11]).entry_count ≤
      (cache_run_ops cache_manager_create
        [CacheOp.setLimits 1 0,
         CacheOp.update "a" (some ⟨1, [65]⟩) 10,
         CacheOp.update "b" (some ⟨2, [66]⟩) 11]).max_entries :=
  (cache_eviction_invariant.1
    [CacheOp.setLimits 1 0,
     CacheOp.update "a" (some ⟨1, [65]⟩) 10,
     CacheOp.update "b" (some ⟨2, [66]⟩) 11]).1 (by decide)

/-! ### Hit behaviour after an update (C2) and miss behaviour (C3) -/

/-- The count loop never evicts the list head: it only runs while at least
two entries exceed a bound of at least one. -/
theorem cache_evict_count_go_head :
    ∀ (fuel : Nat) (c : CacheManager) (e : CacheEntry) (rest : List CacheEntry),
      CacheCountsOk c → c.lru = e :: rest →
      ∃ rest', (cache_evict_count_go fuel c).lru = e :: rest' := by
  intro fuel
  induction fuel with
  | zero => exact fun c e rest _ hl => ⟨rest, by simpa [cache_evict_count_go] using hl⟩
  | succ n ih =>
    intro c e rest h hl
    unfold cache_evict_count_go
    split
    · rename_i hcond
      have hrest : rest ≠ [] := by
        intro hnil
        have : c.entry_count = 1 := by rw [h.1, hl, hnil]; rfl
        omega
      have hlru : (cache_evict_lru c).lru = e :: rest.dropLast := by
        rw [(cache_evict_lru_fields c).2.2.2.2, hl,
          List.dropLast_cons_of_ne_nil hrest]
      exact ih (cache_evict_lru c) e rest.dropLast (cache_evict_lru_counts h) hlru
    · exact ⟨rest, by simpa using hl⟩

/-- The byte loop never evicts the list head either, provided the head's own
footprint fits the byte budget (or the budget is unlimited). -/
theorem cache_evict_bytes_go_head :
    ∀ (fuel : Nat) (c : CacheManager) (e : CacheEntry) (rest : List CacheEntry),
      CacheCountsOk c → c.lru = e :: rest →
      (c.max_bytes = 0 ∨ entry_bytes e ≤ c.max_bytes) →
      ∃ rest', (cache_evict_bytes_go fuel c).lru = e :: rest' := by
  intro fuel
  induction fuel with
  | zero => exact fun c e rest _ hl _ => ⟨rest, by simpa [cache_evict_bytes_go] using hl⟩
  | succ n ih =>
    intro c e rest h hl hfit
    unfold cache_evict_bytes_go
    split
    · rename_i hcond
      have hfit' : entry_bytes e ≤ c.max_bytes := by
        rcases hfit with h0 | hle
        · omega
        · exact hle
      have hrest : rest ≠ [] := by
        intro hnil
        have : c.total_bytes = entry_bytes e := by
          rw [h.2, hl, hnil, lru_bytes_cons]
          simp [lru_bytes]
        omega
      have hlru : (cache_evict_lru c).lru = e :: rest.dropLast := by
        rw [(cache_evict_lru_fields c).2.2.2.2, hl,
          List.dropLast_cons_of_ne_nil hrest]
      refine ih (cache_evict_lru c) e rest.dropLast (cache_evict_lru_counts h) hlru ?_
      rw [(cache_evict_lru_fields c).2.1]
      exact hfit
    · exact ⟨rest, by simpa using hl⟩

/-- `cache_enforce_limits` keeps the most-recently-used entry whenever that
entry's own footprint fits the byte budget. -/
theorem cache_enforce_limits_head {c : CacheManager} {e : CacheEntry}
    {rest : List CacheEntry} (h : CacheCountsOk c) (hl : c.lru = e :: rest)
    (hfit : c.max_bytes = 0 ∨ entry_bytes e ≤ c.max_bytes) :
    ∃ rest', (cache_enforce_limits c).lru = e :: rest' := by
  unfold cache_enforce_limits
  obtain ⟨r1, hr1⟩ := cache_evict_count_go_head c.lru.length c e rest h hl
  obtain ⟨hcnt, -, hmb, -, -⟩ := cache_evict_count_go_spec c.lru.length c h
  refine cache_evict_bytes_go_head _ _ e r1 hcnt hr1 ?_
  rwa [hmb]

/-- If the head of the LRU list is an up-to-date entry for `p`, a lookup
finds it, reports "unchanged", counts a hit, and keeps it at the head. -/
theorem is_changed_hit (c1 : CacheManager) (p : String) (fd' : FileData)
    (now' : Int) (e : CacheEntry) (rest : List CacheEntry)
    (hlru : c1.lru = e :: rest) (hfp : e.filepath = p)
    (hmt : e.mtime = fd'.mtime) (hsz : e.size = fd'.bytes.length) :
    (cache_is_file_changed (some fd') now' c1 p).1 = false ∧
    (cache_is_file_changed (some fd') now' c1 p).2.hits = c1.hits + 1 ∧
    ∃ rest', (cache_is_file_changed (some fd') now' c1 p).2.lru
        = { e with last_accessed := now' } :: rest' := by
  have hlook : cache_lookup c1 p = some e := by
    unfold cache_lookup
    rw [hlru]
    exact List.find?_cons_of_pos _ (by simp [hfp])
  simp only [cache_is_file_changed, hlook]
  rw [if_pos ⟨hmt, hsz⟩]
  exact ⟨rfl, rfl, ⟨_, rfl⟩⟩

/-- C2 (amended): if `cache_update_file(f)` returned true on a
counter-consistent cache and the fresh entry's metadata footprint fits the
byte budget (`max_bytes` 0, i.e. unlimited, or at least
`sizeof(CacheEntry) + strlen(f)` — otherwise limit enforcement may evict the
entry that was just inserted), then a subsequent `cache_is_file_changed(f)`
under unchanged observed `(mtime, size)` returns false, increments the hit
counter by exactly one, and leaves `f`'s entry as the most-recently-used
(head) entry of the LRU list. -/
theorem cache_hit_after_update (c : CacheManager) (p : String) (fd fd' : FileData)
    (now now' : Int)
    (hwf : CacheCountsOk c)
    (hfit : c.max_bytes = 0 ∨ sizeof_CacheEntry + p.length ≤ c.max_bytes)
    (hmt : fd'.mtime = fd.mtime) (hsz : fd'.bytes.length = fd.bytes.length)
    (hupd : (cache_update_file (some fd) now c p).1 = true) :
    (cache_is_file_changed (some fd') now'
        (cache_update_file (some fd) now c p).2 p).1 = false ∧
    (cache_is_file_changed (some fd') now'
        (cache_update_file (some fd) now c p).2 p).2.hits
      = (cache_update_file (some fd) now c p).2.hits + 1 ∧
    ∃ e rest, (cache_is_file_changed (some fd') now'
        (cache_update_file (some fd) now c p).2 p).2.lru = e :: rest ∧
      e.filepath = p := by
  by_cases hcap : fd.bytes.length > 10 * 1024 * 1024
  · exfalso
    simp only [cache_update_file, if_pos hcap] at hupd
    cases hupd
  · have hhead : ∃ rest1, (cache_update_file (some fd) now c p).2.lru
        = ({ filepath := p, mtime := fd.mtime, hash := crc32 fd.bytes,
             size := fd.bytes.length, last_accessed := now } : CacheEntry) :: rest1 := by
      simp only [cache_update_file, if_neg hcap]
      cases hfind : cache_lookup c p with
      | some e0 => exact ⟨_, rfl⟩
      | none =>
        simp only
        refine cache_enforce_limits_head (c :=
          { c with
            lru := { filepath := p, mtime := fd.mtime, hash := crc32 fd.bytes,
                     size := fd.bytes.length, last_accessed := now } :: c.lru,
            tableOrder := p :: c.tableOrder,
            entry_count := c.entry_count + 1,
            total_bytes := c.total_bytes + entry_bytes
              { filepath := p, mtime := fd.mtime, hash := crc32 fd.bytes,
                size := fd.bytes.length, last_accessed := now } }) ?_ rfl ?_
        · refine ⟨?_, ?_⟩
          · simp [hwf.1]
          · simp [lru_bytes_cons, hwf.2]
            omega
        · simpa [entry_bytes] using hfit
    obtain ⟨rest1, hrest1⟩ := hhead
    obtain ⟨h1, h2, rest', h3⟩ := is_changed_hit
      (cache_update_file (some fd) now c p).2 p fd' now' _ rest1 hrest1 rfl
      (by simpa using hmt.symm) (by simpa using hsz.symm)
    exact ⟨h1, h2, _, rest', h3, rfl⟩

/-- C2 (counterexample): with a byte budget of 1, updating `"a"` succeeds —
`cache_update_file` returns true — but the limit enforcement that runs inside
the update immediately evicts the fresh entry, so the subsequent
`cache_is_file_changed("a")` under unchanged `(mtime, size)` returns *true*
and records no hit, contradicting the claim as stated. -/
theorem cache_hit_counterexample :
    (cache_update_file (some ⟨100, []⟩) 5
        (cache_set_limits cache_manager_create 50000 1) "a").1 = true ∧
    (cache_is_file_changed (some ⟨100, []⟩) 6
        (cache_update_file (some ⟨100, []⟩) 5
          (cache_set_limits cache_manager_create 50000 1) "a").2 "a").1 = true ∧
    (cache_is_file_changed (some ⟨100, []⟩) 6
        (cache_update_file (some ⟨100, []⟩) 5
          (cache_set_limits cache_manager_create 50000 1) "a").2 "a").2.hits
      = (cache_update_file (some ⟨100, []⟩) 5
          (cache_set_limits cache_manager_create 50000 1) "a").2.hits := by
  decide

/-- Witness for C2's amended theorem at a concrete input: default limits, one
update, then an unchanged-file check reports "not changed". -/
theorem cache_hit_after_update_witness :
    (cache_is_file_changed (some ⟨7, [104]⟩) 2
        (cache_update_file (some ⟨7, [104]⟩) 1 cache_manager_create "a").2 "a").1
      = false :=
  (cache_hit_after_update cache_manager_create "a" ⟨7, [104]⟩ ⟨7, [104]⟩ 1 2
    ⟨rfl, rfl⟩ (Or.inr (by decide)) rfl rfl (by decide)).1

theorem find?_append_first {l₁ l₂ : List CacheEntry} {b : CacheEntry}
    {q : CacheEntry → Bool} (hl₁ : ∀ x ∈ l₁, ¬q x = true) (hb : q b = true) :
    (l₁ ++ b :: l₂).find? q = some b := by
  induction l₁ with
  | nil => simpa using List.find?_cons_of_pos _ hb
  | cons a l₁ ih =>
    rw [List.cons_append, List.find?_cons_of_neg]
    · exact ih (fun x hx => hl₁ x (List.mem_cons_of_mem a hx))
    · simpa using hl₁ a (List.mem_cons_self a l₁)

/-- C3 (amended): `cache_is_file_changed(f)` returns true whenever `f` has no
cache entry, whenever stat fails, or whenever the stored `(mtime, size)`
differs from the observed one.  The miss counter is incremented by exactly
one in the no-entry and in the differing cases — but **not** on stat failure,
where the call returns true leaving the cache (counters included) completely
untouched.  In every true-returning case no cache entry is created or
removed: on a miss for an absent entry the state changes only by the miss
counter, and on a modified file the entry count is unchanged and the set of
cached paths is a permutation of what it was (the entry is merely promoted
with a refreshed access time). -/
theorem cache_miss_behavior (c : CacheManager) (p : String) (fd : FileData)
    (now : Int) :
    cache_is_file_changed none now c p = (true, c) ∧
    (cache_lookup c p = none →
      cache_is_file_changed (some fd) now c p
        = (true, { c with misses := c.misses + 1 })) ∧
    (∀ e, cache_lookup c p = some e →
      ¬(e.mtime = fd.mtime ∧ e.size = fd.bytes.length) →
      (cache_is_file_changed (some fd) now c p).1 = true ∧
      (cache_is_file_changed (some fd) now c p).2.misses = c.misses + 1 ∧
      (cache_is_file_changed (some fd) now c p).2.entry_count = c.entry_count ∧
      ((cache_is_file_changed (some fd) now c p).2.lru.map
          (fun x => x.filepath)).Perm
        (c.lru.map (fun x => x.filepath))) := by
  refine ⟨rfl, ?_, ?_⟩
  · intro hlook
    simp only [cache_is_file_changed, hlook]
  · intro e hlook hdiff
    simp only [cache_is_file_changed, hlook]
    rw [if_neg hdiff]
    refine ⟨rfl, rfl, rfl, ?_⟩
    have hmem : e ∈ c.lru := List.mem_of_find?_eq_some hlook
    have hpred := List.find?_some (p := fun x : CacheEntry => x.filepath == p) hlook
    obtain ⟨b, l₁, l₂, hl₁, hpb, hsplit, herase⟩ :=
      List.exists_of_eraseP (p := fun x : CacheEntry => x.filepath == p) hmem hpred
    have heb : e = b := by
      have hfb : (l₁ ++ b :: l₂).find? (fun x => x.filepath == p) = some b :=
        find?_append_first hl₁ hpb
      rw [← hsplit] at hfb
      have hlook' : c.lru.find? (fun x => x.filepath == p) = some e := hlook
      rw [hlook'] at hfb
      exact Option.some_injective _ hfb
    rw [herase, hsplit, heb]
    simp only [List.map_cons, List.map_append, List.map_cons]
    exact List.perm_middle.symm

/-- C3 (counterexample): a stat failure (unreadable file) makes
`cache_is_file_changed` return true, but contrary to the claim the miss
counter is *not* incremented — the C function returns before reaching any
counter update. -/
theorem cache_miss_counterexample :
    (cache_is_file_changed none 0 cache_manager_create "a").1 = true ∧
    (cache_is_file_changed none 0 cache_manager_create "a").2.misses = 0 := by
  decide

/-- Witness for C3's amended theorem: a never-seen file on a fresh cache is
reported changed with exactly one recorded miss and no entry created. -/
theorem cache_miss_behavior_witness :
    cache_is_file_changed (some ⟨0, []⟩) 0 cache_manager_create "a"
      = (true, { cache_manager_create with misses := 1 }) :=
  (cache_miss_behavior cache_manager_create "a" ⟨0, []⟩ 0).2.1 rfl

/-! ### Snapshot round trip (C4) and load degradation (C5) -/

theorem read_le_le_bytes :
    ∀ (w v : Nat) (rest : List Nat),
      read_le w (le_bytes w v ++ rest) = some (v % 2 ^ (8 * w), rest) := by
  intro w
  induction w with
  | zero => intro v rest; simp [le_bytes, read_le, Nat.mod_one]
  | succ n ih =>
    intro v rest
    rw [le_bytes, List.cons_append, read_le, ih]
    simp only [Option.map_some']
    have h256 : (2 : Nat) ^ (8 * (n + 1)) = 256 * 2 ^ (8 * n) := by ring
    rw [h256, Nat.mod_mul]

theorem read_le_le_bytes_of_lt {w v : Nat} (rest : List Nat) (h : v < 2 ^ (8 * w)) :
    read_le w (le_bytes w v ++ rest) = some (v, rest) := by
  rw [read_le_le_bytes, Nat.mod_eq_of_lt h]

theorem read_bytes_exact {l : List Nat} (rest : List Nat) :
    read_bytes l.length (l ++ rest) = some (l, rest) := by
  unfold read_bytes
  rw [if_pos (by simp), List.take_left, List.drop_left]

theorem toTwos_lt (m : Int) : toTwos m < 2 ^ 64 := by
  unfold toTwos
  omega

theorem fromTwos_toTwos {m : Int} (h1 : -(2 ^ 63) ≤ m) (h2 : m < 2 ^ 63) :
    fromTwos (toTwos m) = m := by
  simp only [toTwos, fromTwos]
  split <;> omega


/-- The specific properties of an entry under which its snapshot record
round-trips (and, physically, under which the C code writes it faithfully):
the path fits the `u16` length field and consists of non-NUL bytes, the
times fit a signed 64-bit `time_t`, and `hash`/`size` fit their fields. -/
def EntryEncodable (e : CacheEntry) : Prop :=
  e.filepath.length ≤ 65535 ∧
  (∀ ch ∈ e.filepath.data, ch.toNat ≠ 0 ∧ ch.toNat < 256) ∧
  -(2 ^ 63) ≤ e.mtime ∧ e.mtime < 2 ^ 63 ∧
  e.hash < 2 ^ 32 ∧ e.size < 2 ^ 64 ∧
  -(2 ^ 63) ≤ e.last_accessed ∧ e.last_accessed < 2 ^ 63

instance (e : CacheEntry) : Decidable (EntryEncodable e) := by
  unfold EntryEncodable
  infer_instance

theorem read_entry_encode {e : CacheEntry} (rest : List Nat)
    (he : EntryEncodable e) :
    read_entry (encode_entry e ++ rest) = some (e, rest) := by
  obtain ⟨hlen, hch, hm1, hm2, hh, hsz, hl1, hl2⟩ := he
  have hplen : e.filepath.length % 65536 = e.filepath.length :=
    Nat.mod_eq_of_lt (by omega)
  have hblen : (e.filepath.data.map Char.toNat).length = e.filepath.length := by
    rw [List.length_map]
    rfl
  have hassoc : encode_entry e ++ rest
      = le_bytes 2 e.filepath.length ++
        (e.filepath.data.map Char.toNat ++
         (le_bytes 8 (toTwos e.mtime) ++
          (le_bytes 4 e.hash ++
           (le_bytes 8 e.size ++
            (le_bytes 8 (toTwos e.last_accessed) ++ rest))))) := by
    simp only [encode_entry, hplen]
    rw [show (e.filepath.data.map Char.toNat).take e.filepath.length
        = e.filepath.data.map Char.toNat by
      rw [← hblen]
      exact List.take_length _]
    simp only [List.append_assoc]
  unfold read_entry
  rw [hassoc]
  rw [read_le_le_bytes_of_lt _ (show e.filepath.length < 2 ^ (8 * 2) by
    norm_num
    omega)]
  simp only [Option.some_bind]
  rw [show e.filepath.length = (e.filepath.data.map Char.toNat).length from hblen.symm,
    read_bytes_exact]
  simp only [Option.some_bind]
  rw [read_le_le_bytes_of_lt _ (show toTwos e.mtime < 2 ^ (8 * 8) by
    simpa using toTwos_lt e.mtime)]
  simp only [Option.some_bind]
  rw [read_le_le_bytes_of_lt _ (show e.hash < 2 ^ (8 * 4) by simpa using hh)]
  simp only [Option.some_bind]
  rw [read_le_le_bytes_of_lt _ (show e.size < 2 ^ (8 * 8) by simpa using hsz)]
  simp only [Option.some_bind]
  rw [read_le_le_bytes_of_lt _ (show toTwos e.last_accessed < 2 ^ (8 * 8) by
    simpa using toTwos_lt e.last_accessed)]
  simp only [Option.map_some']
  have hmap : (e.filepath.data.map Char.toNat).map Char.ofNat = e.filepath.data := by
    rw [List.map_map]
    have : ∀ ch ∈ e.filepath.data, (Char.ofNat ∘ Char.toNat) ch = id ch :=
      fun ch _ => Char.ofNat_toNat ch
    rw [List.map_congr_left this, List.map_id]
  rw [hmap, fromTwos_toTwos hm1 hm2, fromTwos_toTwos hl1 hl2]

/-- The byte sequence of a run of entry records. -/
def encode_entries (rs : List CacheEntry) : List Nat :=
  rs.flatMap encode_entry

/-- Installing a run of loaded entries appends them at the LRU tail in
order, pushes their paths onto the chains newest-first, and credits the
counters accordingly. -/
theorem foldl_add_loaded :
    ∀ (rs : List CacheEntry) (c : CacheManager),
      rs.foldl cache_add_loaded c =
        { c with
          lru := c.lru ++ rs,
          tableOrder := (rs.map (fun e => e.filepath)).reverse ++ c.tableOrder,
          entry_count := c.entry_count + rs.length,
          total_bytes := c.total_bytes + lru_bytes rs } := by
  intro rs
  induction rs with
  | nil =>
    intro c
    simp [lru_bytes]
  | cons e rs ih =>
    intro c
    rw [List.foldl_cons, ih]
    simp only [cache_add_loaded]
    refine CacheManager.ext ?_ ?_ ?_ ?_ rfl rfl rfl rfl
    · simp
    · simp
    · simp only [List.length_cons]
      omega
    · simp only [lru_bytes_cons]
      omega

/-- Reading a run of well-formed records consumes them in order: if the
declared count covers at most the intact records and whatever follows fails
to parse as a record, the loop installs exactly the intact records. -/
theorem cache_load_entries_encode :
    ∀ (rs : List CacheEntry) (n : Nat) (c : CacheManager) (tail : List Nat),
      (∀ e ∈ rs, EntryEncodable e) → rs.length ≤ n →
      (rs.length < n → read_entry tail = none) →
      cache_load_entries c (encode_entries rs ++ tail) n
        = rs.foldl cache_add_loaded c := by
  intro rs
  induction rs with
  | nil =>
    intro n c tail he hn htail
    cases n with
    | zero => rfl
    | succ m =>
      have hnone : read_entry tail = none := htail (by simp)
      show cache_load_entries c (encode_entries [] ++ tail) (m + 1) = c
      rw [show encode_entries [] ++ tail = tail by simp [encode_entries]]
      unfold cache_load_entries
      rw [hnone]
  | cons e rs ih =>
    intro n c tail he hn htail
    cases n with
    | zero => simp at hn
    | succ m =>
      have hshape : encode_entries (e :: rs) ++ tail
          = encode_entry e ++ (encode_entries rs ++ tail) := by
        simp [encode_entries]
      rw [hshape]
      unfold cache_load_entries
      rw [read_entry_encode _ (he e (List.mem_cons_self e rs))]
      rw [List.foldl_cons]
      exact ih m (cache_add_loaded c e) tail
        (fun x hx => he x (List.mem_cons_of_mem e hx))
        (by simpa using hn)
        (fun h => htail (by simpa using Nat.succ_lt_succ h))

theorem cache_evict_count_go_no_limit {c : CacheManager} (h : c.max_entries = 0) :
    ∀ fuel, cache_evict_count_go fuel c = c := by
  intro fuel
  cases fuel with
  | zero => rfl
  | succ n =>
    unfold cache_evict_count_go
    rw [if_neg (by simp [h])]

theorem cache_evict_bytes_go_no_limit {c : CacheManager} (h : c.max_bytes = 0) :
    ∀ fuel, cache_evict_bytes_go fuel c = c := by
  intro fuel
  cases fuel with
  | zero => rfl
  | succ n =>
    unfold cache_evict_bytes_go
    rw [if_neg (by simp [h])]

/-- With both bounds 0 (unlimited) enforcement is the identity. -/
theorem cache_enforce_limits_no_limit {c : CacheManager} (h1 : c.max_entries = 0)
    (h2 : c.max_bytes = 0) : cache_enforce_limits c = c := by
  unfold cache_enforce_limits
  rw [cache_evict_count_go_no_limit h1, cache_evict_bytes_go_no_limit h2]

/-- An empty cache whose limits have been set to 0/0 (unlimited), as
`cache_set_limits(cache, 0, 0)` produces on a fresh cache. -/
def cache_unlimited_empty : CacheManager :=
  { lru := [], tableOrder := [], entry_count := 0, total_bytes := 0,
    hits := 0, misses := 0, max_entries := 0, max_bytes := 0 }

/-- Parsing helper: a snapshot with a correct version field and a count field
hands the body to the entry loop and enforces the limits. -/
theorem cache_manager_load_parse (c : CacheManager) (count : Nat)
    (body : List Nat) (hcount : count < 2 ^ 64) :
    cache_manager_load c
        (some (le_bytes 4 CACHE_VERSION ++ (le_bytes 8 count ++ body)))
      = (true, cache_enforce_limits (cache_load_entries c body count)) := by
  have hv4 : read_le 4 (le_bytes 4 CACHE_VERSION ++ (le_bytes 8 count ++ body))
      = some (CACHE_VERSION, le_bytes 8 count ++ body) :=
    read_le_le_bytes_of_lt _ (by norm_num [CACHE_VERSION])
  have hv8 : read_le 8 (le_bytes 8 count ++ body) = some (count, body) :=
    read_le_le_bytes_of_lt _ (by simpa using hcount)
  simp only [cache_manager_load, hv4, hv8, ne_eq, not_true_eq_false, if_false]

/-- C5: `cache_manager_load` (i) on a missing cache file reports success and
leaves the cache untouched (an empty cache stays empty, so every file is
subsequently reported changed); (ii) on a snapshot whose leading version
field differs from `CACHE_VERSION` reports success and leaves the cache
untouched; and (iii) when the record run is cut short — the declared count
exceeds the intact records and the remaining bytes do not parse as a record —
it stops early, keeps exactly the fully-read records (in snapshot order, into
an empty unlimited cache), and adds no partially-constructed entry to the
table or the LRU list. -/
theorem cache_load_degradation :
    (∀ c : CacheManager, cache_manager_load c none = (true, c)) ∧
    (∀ (c : CacheManager) (v : Nat) (rest : List Nat), v < 2 ^ 32 →
      v ≠ CACHE_VERSION →
      cache_manager_load c (some (le_bytes 4 v ++ rest)) = (true, c)) ∧
    (∀ (rs : List CacheEntry) (count : Nat) (tail : List Nat),
      (∀ e ∈ rs, EntryEncodable e) → count < 2 ^ 64 → rs.length ≤ count →
      (rs.length < count → read_entry tail = none) →
      cache_manager_load cache_unlimited_empty
          (some (le_bytes 4 CACHE_VERSION ++
            (le_bytes 8 count ++ (encode_entries rs ++ tail))))
        = (true, { cache_unlimited_empty with
            lru := rs,
            tableOrder := (rs.map (fun e => e.filepath)).reverse,
            entry_count := rs.length,
            total_bytes := lru_bytes rs })) := by
  refine ⟨fun c => rfl, ?_, ?_⟩
  · intro c v rest hv32 hv
    have hv4 : read_le 4 (le_bytes 4 v ++ rest) = some (v, rest) :=
      read_le_le_bytes_of_lt _ (by simpa using hv32)
    simp only [cache_manager_load, hv4, ne_eq, hv, not_false_eq_true, if_true]
  · intro rs count tail he hcount hn htail
    rw [cache_manager_load_parse _ _ _ hcount,
      cache_load_entries_encode rs count cache_unlimited_empty tail he hn htail,
      foldl_add_loaded]
    rw [cache_enforce_limits_no_limit rfl rfl]
    simp [cache_unlimited_empty]

/-- Witness for C5's truncation clause: one intact record followed by a
single stray byte, with a declared count of 2; the intact record is kept,
nothing else is constructed. -/
theorem cache_load_degradation_witness :
    cache_manager_load cache_unlimited_empty
        (some (le_bytes 4 CACHE_VERSION ++
          (le_bytes 8 2 ++
            (encode_entries [⟨"a", 3, 5, 1, 9⟩] ++ [0]))))
      = (true, { cache_unlimited_empty with
          lru := [⟨"a", 3, 5, 1, 9⟩],
          tableOrder := ["a"],
          entry_count := 1,
          total_bytes := lru_bytes [⟨"a", 3, 5, 1, 9⟩] }) :=
  cache_load_degradation.2.2 [⟨"a", 3, 5, 1, 9⟩] 2 [0]
    (by decide) (by decide) (by decide) (by decide)

theorem hash_filepath_lt (s : String) : hash_filepath s < HASH_TABLE_SIZE := by
  unfold hash_filepath HASH_TABLE_SIZE
  exact Nat.mod_lt _ (by norm_num)

theorem flatMap_congr_mem {α β : Type} {L : List α} {f g : α → List β}
    (h : ∀ a ∈ L, f a = g a) : L.flatMap f = L.flatMap g := by
  induction L with
  | nil => rfl
  | cons a L ih =>
    simp only [List.flatMap_cons]
    rw [h a (List.mem_cons_self a L), ih (fun x hx => h x (List.mem_cons_of_mem a hx))]

theorem flatMap_filterMap {α β γ : Type} (L : List α) (f : α → List β)
    (g : β → Option γ) :
    L.flatMap (fun b => (f b).filterMap g) = (L.flatMap f).filterMap g := by
  induction L with
  | nil => rfl
  | cons a L ih => simp [List.flatMap_cons, List.filterMap_append, ih]

/-- Distributing a newly inserted path over the bucket decomposition: if the
bucket indices are distinct and the path's bucket is among them, the
decomposition of `x :: xs` is, up to permutation, `x` in front of the
decomposition of `xs`. -/
theorem flatMap_bucket_filter_cons (x : String) (xs : List String) :
    ∀ L : List Nat, L.Nodup → hash_filepath x ∈ L →
      (L.flatMap (fun b => (x :: xs).filter (fun p => hash_filepath p == b))).Perm
        (x :: L.flatMap (fun b => xs.filter (fun p => hash_filepath p == b))) := by
  intro L
  induction L with
  | nil => intro _ hmem; simp at hmem
  | cons b L ih =>
    intro hnd hmem
    have hndL : L.Nodup := hnd.of_cons
    have hbL : b ∉ L := by
      intro hc
      exact (List.nodup_cons.mp hnd).1 hc
    by_cases hxb : hash_filepath x = b
    · have hfilter : (x :: xs).filter (fun p => hash_filepath p == b)
          = x :: xs.filter (fun p => hash_filepath p == b) := by
        rw [List.filter_cons_of_pos]
        simp [hxb]
      have hrestL : L.flatMap (fun b' => (x :: xs).filter (fun p => hash_filepath p == b'))
          = L.flatMap (fun b' => xs.filter (fun p => hash_filepath p == b')) := by
        refine flatMap_congr_mem (fun b' hb' => ?_)
        rw [List.filter_cons_of_neg]
        simp only [beq_iff_eq]
        intro hc
        rw [hxb] at hc
        exact hbL (hc ▸ hb')
      simp only [List.flatMap_cons, hfilter, hrestL, List.cons_append]
      exact List.Perm.refl _
    · have hmemL : hash_filepath x ∈ L := by
        rcases List.mem_cons.mp hmem with hc | hc
        · exact absurd hc hxb
        · exact hc
      have hfilter : (x :: xs).filter (fun p => hash_filepath p == b)
          = xs.filter (fun p => hash_filepath p == b) := by
        rw [List.filter_cons_of_neg]
        simp [hxb]
      simp only [List.flatMap_cons, hfilter]
      have hstep := List.Perm.append_left
        (xs.filter (fun p => hash_filepath p == b)) (ih hndL hmemL)
      exact hstep.trans List.perm_middle

/-- The bucket decomposition of the live paths is a permutation of the live
paths. -/
theorem range_flatMap_filter_perm :
    ∀ l : List String,
      ((List.range HASH_TABLE_SIZE).flatMap
        (fun b => l.filter (fun p => hash_filepath p == b))).Perm l := by
  intro l
  induction l with
  | nil => simp
  | cons x xs ih =>
    refine (flatMap_bucket_filter_cons x xs (List.range HASH_TABLE_SIZE)
      (List.nodup_range HASH_TABLE_SIZE)
      (List.mem_range.mpr (hash_filepath_lt x))).trans ?_
    exact ih.cons x

/-- With pairwise-distinct paths, looking a path up finds its (unique)
entry. -/
theorem find?_paths_nodup :
    ∀ (L : List CacheEntry), (L.map (fun e => e.filepath)).Nodup →
      ∀ e ∈ L, L.find? (fun y => y.filepath == e.filepath) = some e := by
  intro L
  induction L with
  | nil => intro _ e he; simp at he
  | cons a L ih =>
    intro hnd e he
    have hnd' := hnd
    rw [List.map_cons, List.nodup_cons] at hnd'
    by_cases hae : (a.filepath == e.filepath) = true
    · have hfe : a.filepath = e.filepath := beq_iff_eq.mp hae
      rcases List.mem_cons.mp he with rfl | he'
      · exact List.find?_cons_of_pos _ (by simp)
      · exfalso
        exact hnd'.1 (hfe ▸ List.mem_map_of_mem (fun y => y.filepath) he')
    · have hne : e ∈ L := by
        rcases List.mem_cons.mp he with rfl | he'
        · simp at hae
        · exact he'
      have hstep : (a :: L).find? (fun y => y.filepath == e.filepath)
          = L.find? (fun y => y.filepath == e.filepath) := by
        apply List.find?_cons_of_neg
        simpa using hae
      rw [hstep]
      exact ih hnd'.2 e hne

theorem filterMap_lookup (L : List CacheEntry)
    (hnd : (L.map (fun e => e.filepath)).Nodup) :
    ∀ l : List CacheEntry, (∀ x ∈ l, x ∈ L) →
      (l.map (fun e => e.filepath)).filterMap
          (fun p => L.find? (fun y => y.filepath == p)) = l := by
  intro l
  induction l with
  | nil => intro _; rfl
  | cons e l ih =>
    intro hsub
    rw [List.map_cons, List.filterMap_cons,
      find?_paths_nodup L hnd e (hsub e (List.mem_cons_self e l))]
    rw [ih (fun x hx => hsub x (List.mem_cons_of_mem e hx))]

/-- The full well-formedness of a cache state, specification §3: counters
reflect the live set, every hash-table member is an LRU member and vice versa
(`tableOrder` is a permutation of the live paths), paths are unique, every
entry is physically representable, and the entry count fits `size_t`. -/
def CacheWF (c : CacheManager) : Prop :=
  CacheCountsOk c ∧
  (c.lru.map (fun e => e.filepath)).Nodup ∧
  c.tableOrder.Perm (c.lru.map (fun e => e.filepath)) ∧
  (∀ e ∈ c.lru, EntryEncodable e) ∧
  c.entry_count < 2 ^ 64

instance (c : CacheManager) : Decidable (CacheCountsOk c) := by
  unfold CacheCountsOk
  infer_instance

instance (c : CacheManager) : Decidable (CacheWF c) := by
  unfold CacheWF
  infer_instance

/-- Under well-formedness the save order is a permutation of the live
entries. -/
theorem cache_save_order_perm {c : CacheManager}
    (hnd : (c.lru.map (fun e => e.filepath)).Nodup)
    (hperm : c.tableOrder.Perm (c.lru.map (fun e => e.filepath))) :
    (cache_save_order c).Perm c.lru := by
  unfold cache_save_order bucket_chain
  rw [flatMap_filterMap]
  have h1 : ((List.range HASH_TABLE_SIZE).flatMap
      (fun b => c.tableOrder.filter (fun p => hash_filepath p == b))).Perm
      c.tableOrder := range_flatMap_filter_perm c.tableOrder
  have h2 := (h1.trans hperm).filterMap (fun p => cache_lookup c p)
  have h3 : ((c.lru.map (fun e => e.filepath)).filterMap
      (fun p => cache_lookup c p)) = c.lru :=
    filterMap_lookup c.lru hnd c.lru (fun x hx => hx)
  rw [h3] at h2
  exact h2

/-- C4: saving a well-formed cache and loading the snapshot back into an
empty cache (with unlimited bounds, so the load's final limit enforcement —
which only matters when the loaded entry count would exceed the configured
bounds — evicts nothing) succeeds and yields exactly the snapshot's records
as the LRU list: the same set of entries as the original cache — same paths
with the same fingerprint, mtime, size and last-accessed values — with the
LRU order after load following the snapshot's record order, first record
most recently used. -/
theorem cache_roundtrip (c : CacheManager) (hwf : CacheWF c) :
    (cache_manager_load cache_unlimited_empty (some (cache_manager_save c))).1
      = true ∧
    (cache_manager_load cache_unlimited_empty (some (cache_manager_save c))).2.lru
      = cache_save_order c ∧
    (cache_save_order c).Perm c.lru := by
  obtain ⟨hcounts, hnd, hperm, henc, hcount64⟩ := hwf
  have hsop : (cache_save_order c).Perm c.lru := cache_save_order_perm hnd hperm
  have hlen : (cache_save_order c).length = c.entry_count := by
    rw [hsop.length_eq, hcounts.1]
  have hencs : ∀ e ∈ cache_save_order c, EntryEncodable e :=
    fun e he => henc e (hsop.subset he)
  have hshape : cache_manager_save c
      = le_bytes 4 CACHE_VERSION ++
        (le_bytes 8 c.entry_count ++
          (encode_entries (cache_save_order c) ++ [])) := by
    unfold cache_manager_save encode_entries
    simp [List.append_assoc]
  rw [hshape, cache_manager_load_parse _ _ _ hcount64,
    cache_load_entries_encode (cache_save_order c) c.entry_count
      cache_unlimited_empty [] hencs (by omega)
      (fun h => by unfold read_entry read_le; rfl),
    foldl_add_loaded, cache_enforce_limits_no_limit rfl rfl]
  exact ⟨rfl, by simp [cache_unlimited_empty], hsop⟩

/-- Witness input for C4: a well-formed one-entry cache. -/
def cacheW : CacheManager :=
  { lru := [⟨"a", 3, 5, 1, 9⟩], tableOrder := ["a"], entry_count := 1,
    total_bytes := 41, hits := 0, misses := 0,
    max_entries := DEFAULT_MAX_ENTRIES, max_bytes := DEFAULT_MAX_BYTES }

/-- Witness for C4 at the concrete cache above. -/
theorem cache_roundtrip_witness :
    (cache_manager_load cache_unlimited_empty (some (cache_manager_save cacheW))).1
      = true ∧
    (cache_manager_load cache_unlimited_empty
        (some (cache_manager_save cacheW))).2.lru = cache_save_order cacheW ∧
    (cache_save_order cacheW).Perm cacheW.lru :=
  cache_roundtrip cacheW (by
    refine ⟨⟨rfl, rfl⟩, by decide, ?_, by decide, by decide⟩
    exact List.Perm.refl _)

end Brightpanda
